import Mathlib

/-!
Verification of the synthetic-data generator in `synthetic/generate.py`
(`SingleTaskTreeDepsGenerator`).

Modelling conventions (shallow embedding):

* The dependency graph is the edge list `E : List (Nat × Nat)` built by
  `_generate_edges` / `_generate_edges_from_list`.  `_generate_edges`
  guarantees each edge `(p, i)` has `p < i` and each child `i` appears at
  most once (predicate `WFE` below), hence the graph is a forest.

* For a fixed outer class `y`, the quantities `np.exp(self.theta[(i, val)][y-1])`
  and `np.exp(self.theta[((i, j), v1, v2)][y-1])` are strictly positive reals
  depending only on `(i, val)` resp. `((i, j), v1, v2)`.  We abstract them as
  parameters `w : Nat → Nat → ℚ` and `we : Nat × Nat → Nat → Nat → ℚ`
  (positivity is a hypothesis where a claim needs it).  All identities proved
  about the engine hold for arbitrary such weight tables, hence in particular
  for the exponential weights of every class `y`.

* `naive_SPA(i, y, other_nodes)` restricts to the connected component of `i`,
  orients it as a tree rooted at `i` by breadth-first search, and passes
  messages from the leaves to `i`.  On a forest the BFS tree rooted at `i` is
  exactly the orientation of `i`'s component away from `i`; we build that
  orientation directly from the parent/child structure (`down`, `up`,
  `treeFrom`) and compute the same messages by structural recursion
  (`mess`), which processes children before parents exactly like the
  decreasing-depth elimination order of the code.
-/

namespace SynthGen

abbrev Edge := Nat × Nat

/-- Largest node index appearing as a child of some edge. -/
def maxSnd (E : List Edge) : Nat := (E.map Prod.snd).foldr max 0

/-- The `self.parent` map of the generator: `parentOf E c` is the parent of
`c`, i.e. the first `e ∈ E` with `e.2 = c` (unique under `WFE`).  The guard
`e.1 < c` is redundant under `WFE` (every edge points from a lower to a
higher index) and only serves to make recursion along parents terminating. -/
def parentOf (E : List Edge) (c : Nat) : Option Nat :=
  match E.find? (fun e => e.2 == c) with
  | some e => if e.1 < c then some e.1 else none
  | none => none

/-- The children of `n` in the forest: second components of edges leaving
`n`.  The guard `e.1 < e.2` is redundant under `WFE`. -/
def childrenOf (E : List Edge) (n : Nat) : List Nat :=
  (E.filter (fun e => e.1 == n && decide (e.1 < e.2))).map Prod.snd

/-- Well-formedness of the edge list as guaranteed by `_generate_edges`:
every edge points from a strictly smaller parent index to a larger child
index, and no child has two parents.  This makes the graph a forest. -/
def WFE (E : List Edge) : Prop :=
  (∀ e ∈ E, e.1 < e.2) ∧ (E.map Prod.snd).Nodup

instance : DecidablePred WFE := fun E => by
  unfold WFE; infer_instance

theorem parentOf_lt (E : List Edge) {c p : Nat} (h : parentOf E c = some p) :
    p < c := by
  unfold parentOf at h
  cases hf : E.find? (fun e => e.2 == c) with
  | none => rw [hf] at h; exact absurd h (by simp)
  | some e =>
    rw [hf] at h
    by_cases hlt : e.1 < c
    · simp [hlt] at h; omega
    · simp [hlt] at h

theorem parentOf_mem (E : List Edge) {c p : Nat} (h : parentOf E c = some p) :
    (p, c) ∈ E := by
  unfold parentOf at h
  cases hf : E.find? (fun e => e.2 == c) with
  | none => rw [hf] at h; exact absurd h (by simp)
  | some e =>
    rw [hf] at h
    have hmem := List.mem_of_find?_eq_some hf
    have hpred := List.find?_some hf
    simp only [beq_iff_eq] at hpred
    by_cases hlt : e.1 < c
    · simp only [hlt, if_true, Option.some.injEq] at h
      cases e with
      | mk a b =>
        simp at h hpred
        subst h; subst hpred; exact hmem
    · simp [hlt] at h

/-- Under `WFE`, membership `(p, c) ∈ E` determines the parent map. -/
theorem parentOf_eq_of_mem {E : List Edge} (hWF : WFE E) {p c : Nat}
    (h : (p, c) ∈ E) : parentOf E c = some p := by
  obtain ⟨hlt, hnd⟩ := hWF
  unfold parentOf
  cases hf : E.find? (fun e => e.2 == c) with
  | none =>
    have := List.find?_eq_none.mp hf (p, c) h
    simp at this
  | some e =>
    have hmem := List.mem_of_find?_eq_some hf
    have hpred := List.find?_some hf
    simp at hpred
    -- `e` and `(p, c)` are both edges with child `c`; Nodup of children
    -- forces them to be equal.
    have cnt : e = (p, c) := by
      by_contra hne
      have h1 : e.2 ∈ E.map Prod.snd := List.mem_map_of_mem Prod.snd hmem
      -- build a duplicate in the children list
      have : ¬ (E.map Prod.snd).Nodup := by
        intro hnodup
        -- use the injectivity of `Prod.snd` on E given Nodup of the map
        have hinj := List.inj_on_of_nodup_map hnodup
        exact hne (by
          have := hinj hmem h (by simp [hpred])
          exact this)
      exact this hnd
    rw [cnt] at hpred hmem ⊢
    have : p < c := hlt _ h
    simp [this]

theorem childrenOf_mem {E : List Edge} {n c : Nat} (h : c ∈ childrenOf E n) :
    (n, c) ∈ E ∧ n < c := by
  unfold childrenOf at h
  obtain ⟨e, he, hec⟩ := List.mem_map.mp h
  have hmem := List.mem_of_mem_filter he
  have hp := List.of_mem_filter he
  simp at hp
  obtain ⟨h1, h2⟩ := hp
  cases e with
  | mk a b =>
    simp at h1 h2 hec
    subst h1; subst hec
    exact ⟨hmem, h2⟩

theorem mem_childrenOf_of_mem {E : List Edge} {n c : Nat}
    (h : (n, c) ∈ E) (hlt : n < c) : c ∈ childrenOf E n := by
  unfold childrenOf
  refine List.mem_map.mpr ⟨(n, c), ?_, rfl⟩
  refine List.mem_filter.mpr ⟨h, ?_⟩
  simp [hlt]

theorem le_foldr_max {c : Nat} : ∀ (l : List Nat), c ∈ l → c ≤ l.foldr max 0
  | a :: l, h => by
    simp at h
    rcases h with h' | h'
    · subst h'; simp
    · have := le_foldr_max l h'
      simp; omega

theorem childrenOf_le_maxSnd {E : List Edge} {n c : Nat}
    (h : c ∈ childrenOf E n) : c ≤ maxSnd E := by
  have hmem := (childrenOf_mem h).1
  have hc : c ∈ E.map Prod.snd := List.mem_map_of_mem Prod.snd hmem
  exact le_foldr_max _ hc

/-- The root of the forest component of `c`: follow parents upward. -/
def rootOf (E : List Edge) (c : Nat) : Nat :=
  match h : parentOf E c with
  | some p => rootOf E p
  | none => c
termination_by c
decreasing_by exact parentOf_lt E h

/-- The ancestor chain of `x` (including `x` itself), following parents. -/
def ancestors (E : List Edge) (x : Nat) : List Nat :=
  x :: (match h : parentOf E x with
        | some p => ancestors E p
        | none => [])
termination_by x
decreasing_by exact parentOf_lt E h

/-- `desc E x n`: `n` lies on the parent chain of `x` (i.e. `x` is a
descendant of `n`, or equal to it). -/
def desc (E : List Edge) (x n : Nat) : Prop := n ∈ ancestors E x

instance : ∀ E x n, Decidable (desc E x n) := fun E x n => by
  unfold desc; infer_instance

/-! ## The oriented component tree

`nx.bfs_tree(G_i, i)` on a forest is the orientation of `i`'s connected
component away from `i`.  We reify it as a rose tree: `down E n` is the
subtree of descendants of `n`; `up E p c` re-orients the part of the
component reachable from `p` without entering `c`'s subtree (used when the
root has a parent `p` in the stored orientation); `treeFrom E r` is the whole
component oriented away from `r`. -/

inductive RTree : Type where
  | mk : Nat → List RTree → RTree
deriving Repr

def RTree.root : RTree → Nat
  | .mk n _ => n

def RTree.childList : RTree → List RTree
  | .mk _ ts => ts

mutual
/-- Nodes of a rose tree, root first. -/
def RTree.nodes : RTree → List Nat
  | .mk n ts => n :: nodesList ts

def nodesList : List RTree → List Nat
  | [] => []
  | t :: ts => t.nodes ++ nodesList ts
end

/-- Recover the orientation an edge has in the stored edge list `E`
(mirrors the `if (parents[node][0], node) in self.E` check of the code). -/
def orient (E : List Edge) (a b : Nat) : Edge :=
  if (a, b) ∈ E then (a, b) else (b, a)

mutual
/-- The edges of a rose tree, each in its `E`-orientation. -/
def tEdges (E : List Edge) : RTree → List Edge
  | .mk n ts => tEdgesList E n ts

def tEdgesList (E : List Edge) (n : Nat) : List RTree → List Edge
  | [] => []
  | c :: cs => orient E n c.root :: (tEdges E c ++ tEdgesList E n cs)
end

/-- Subtree of all descendants of `n` in the forest. -/
def down (E : List Edge) (n : Nat) : RTree :=
  RTree.mk n ((childrenOf E n).attach.map (fun c => down E c.1))
termination_by maxSnd E + 1 - n
decreasing_by
  have h1 := (childrenOf_mem c.2).2
  have h2 := childrenOf_le_maxSnd c.2
  omega

/-- The component part reachable from `p` without entering the subtree of the
child `c` (which the caller has already built), oriented away from `c`. -/
def up (E : List Edge) (p avoid : Nat) : RTree :=
  RTree.mk p
    (((childrenOf E p).filter (fun c => c != avoid)).map (down E) ++
      match h : parentOf E p with
      | some q => [up E q p]
      | none => [])
termination_by p
decreasing_by exact parentOf_lt E h

/-- The connected component of `r`, oriented away from `r`: this is the
shape of `nx.bfs_tree(G_i, i)` for a forest.  Caveat: a node with no
incident edge is never added to `self.G`, so on such a node the code's
`nx.node_connected_component(self.G, i)` raises `KeyError`; the model
totalizes that case to a bare singleton root.  Theorems about program
behaviour therefore restrict attention to nodes with an incident edge. -/
def treeFrom (E : List Edge) (r : Nat) : RTree :=
  RTree.mk r
    ((childrenOf E r).map (down E) ++
      match parentOf E r with
      | some p => [up E p r]
      | none => [])

/-! ## The sum-product engine (`naive_SPA`) -/

/-- Local unary term: `exp(theta[(node, val)][y-1])` if `val > 0` else `1`.
`w` abstracts the positive exponential weight table for the outer class. -/
def uterm (w : Nat → Nat → ℚ) (n v : Nat) : ℚ :=
  if 0 < v then w n v else 1

/-- Local edge term between `node` (value `v`) and its tree-parent `p`
(value `vp`), looking up the stored orientation exactly like the code. -/
def epair (E : List Edge) (we : Edge → Nat → Nat → ℚ) (p n vp v : Nat) : ℚ :=
  if 0 < v ∧ 0 < vp then
    (if (p, n) ∈ E then we (p, n) vp v else we (n, p) v vp)
  else 1

/-- Candidate values of a node: pinned to `other_nodes[node]` when fixed,
otherwise `0..k`. -/
def valRange (fixed : List (Nat × Nat)) (k n : Nat) : List Nat :=
  match fixed.lookup n with
  | some v => [v]
  | none => List.range (k + 1)

mutual
/-- The message a subtree sends to its tree-parent `parent`, as a function of
the parent's candidate value `vp`: sum over the subtree root's candidate
values of (unary term) × (edge term with parent) × (product of incoming
children messages). -/
def mess (E : List Edge) (k : Nat) (w : Nat → Nat → ℚ) (we : Edge → Nat → Nat → ℚ)
    (fixed : List (Nat × Nat)) (parent : Nat) : RTree → Nat → ℚ
  | .mk n ts, vp =>
    ((valRange fixed k n).map (fun v =>
      uterm w n v * epair E we parent n vp v * messProd E k w we fixed n ts v)).sum

/-- Product of the messages of a list of child subtrees, all evaluated at the
common parent value `v`. -/
def messProd (E : List Edge) (k : Nat) (w : Nat → Nat → ℚ) (we : Edge → Nat → Nat → ℚ)
    (fixed : List (Nat × Nat)) (parent : Nat) : List RTree → Nat → ℚ
  | [], _ => 1
  | c :: cs, v => mess E k w we fixed parent c v * messProd E k w we fixed parent cs v
end

/-- The final combination at the root: unary term times incoming messages
(the root's own entry in `other_nodes` is ignored, as in the code). -/
def rootMarg (E : List Edge) (k : Nat) (w : Nat → Nat → ℚ) (we : Edge → Nat → Nat → ℚ)
    (fixed : List (Nat × Nat)) (t : RTree) (v : Nat) : ℚ :=
  uterm w t.root v * messProd E k w we fixed t.root t.childList v

/-- `naive_SPA(i, y, other_nodes)`: the length-`(k+1)` vector of unnormalized
potentials over `i`'s label value.  `w`/`we` are the exponential weight
tables of the outer class `y`.  For an isolated `i` the code raises
`KeyError` (see `treeFrom`); the model returns the bare unary vector, and
theorems about program behaviour carry the corresponding side condition. -/
def naive_SPA (E : List Edge) (k : Nat) (w : Nat → Nat → ℚ) (we : Edge → Nat → Nat → ℚ)
    (i : Nat) (fixed : List (Nat × Nat)) : List ℚ :=
  (List.range (k + 1)).map (rootMarg E k w we fixed (treeFrom E i))

/-- `get_Z(y) = np.sum(self.naive_SPA(0, y))`. -/
def get_Z (E : List Edge) (k : Nat) (w : Nat → Nat → ℚ) (we : Edge → Nat → Nat → ℚ) : ℚ :=
  (naive_SPA E k w we 0 []).sum

/-- The value `P_vals_true` stores at key `(i, val, y)`:
`self.naive_SPA(i, y)[val] / Z`. -/
def p_solo (E : List Edge) (k : Nat) (w : Nat → Nat → ℚ) (we : Edge → Nat → Nat → ℚ)
    (i val : Nat) : ℚ :=
  (naive_SPA E k w we i []).getD val 0 / get_Z E k w we

/-- The value `P_joints_true` stores at key `(i, vi, j, vj, y)`: computed for
`i < j` as `naive_SPA(i, y, {j: vj})[vi] / Z` and copied symmetrically to the
swapped key; keys with `i = j` are never stored (`defaultdict` yields `0`). -/
def p_joints (E : List Edge) (k : Nat) (w : Nat → Nat → ℚ) (we : Edge → Nat → Nat → ℚ)
    (i vi j vj : Nat) : ℚ :=
  if i < j then (naive_SPA E k w we i [(j, vj)]).getD vi 0 / get_Z E k w we
  else if j < i then (naive_SPA E k w we j [(i, vi)]).getD vj 0 / get_Z E k w we
  else 0

/-- `P_conditional(i, li, j, lj, y) = p_joints[(i,li,j,lj,y)] / p_solo[(j,lj,y)]`. -/
def P_conditional (E : List Edge) (k : Nat) (w : Nat → Nat → ℚ) (we : Edge → Nat → Nat → ℚ)
    (i li j lj : Nat) : ℚ :=
  p_joints E k w we i li j lj / p_solo E k w we j lj

/-! ## The flat (root-free) partition sum

`Zrec valR W l σ` sums `W` over all ways of updating `σ` on the nodes of `l`
with values from `valR`; with `W` the product of all unary and edge terms of
a component this is the brute-force partition function, which does not
depend on any root.  The engine is proved equal to it below. -/

def Zrec (valR : Nat → List Nat) (W : (Nat → Nat) → ℚ) : List Nat → (Nat → Nat) → ℚ
  | [], σ => W σ
  | n :: ns, σ => ((valR n).map (fun v => Zrec valR W ns (Function.update σ n v))).sum

/-- Edge factor of a full assignment `τ` for an `E`-oriented edge `e`. -/
def epairE (we : Edge → Nat → Nat → ℚ) (τ : Nat → Nat) (e : Edge) : ℚ :=
  if 0 < τ e.1 ∧ 0 < τ e.2 then we e (τ e.1) (τ e.2) else 1

/-- Total weight of an assignment `τ` over given node and edge lists. -/
def weightOf (w : Nat → Nat → ℚ) (we : Edge → Nat → Nat → ℚ)
    (nodes : List Nat) (edges : List Edge) (τ : Nat → Nat) : ℚ :=
  (nodes.map (fun x => uterm w x (τ x))).prod * (edges.map (epairE we τ)).prod

/-- Two nodes are in the same connected component of the dependency graph. -/
def sameComponent (E : List Edge) (a b : Nat) : Prop :=
  Relation.ReflTransGen (fun x z => (x, z) ∈ E ∨ (z, x) ∈ E) a b

/-! ## Lemmas about `Zrec` -/

/-- `F` reads an assignment only at coordinates in `S`. -/
def DependsOn (F : (Nat → Nat) → ℚ) (S : List Nat) : Prop :=
  ∀ σ τ : Nat → Nat, (∀ x ∈ S, σ x = τ x) → F σ = F τ

theorem list_sum_map_add (l : List α) (f g : α → ℚ) :
    (l.map (fun a => f a + g a)).sum = (l.map f).sum + (l.map g).sum := by
  induction l with
  | nil => simp
  | cons a l ih => simp [ih]; ring

theorem list_sum_map_comm (l m : List α) (f : α → α → ℚ) :
    (l.map (fun a => ((m.map (f a)).sum))).sum
      = (m.map (fun b => ((l.map (fun a => f a b)).sum))).sum := by
  induction l with
  | nil => simp
  | cons a l ih =>
    simp only [List.map_cons, List.sum_cons, ih]
    rw [← list_sum_map_add]

theorem Zrec_congr_pred (valR : Nat → List Nat) (W₁ W₂ : (Nat → Nat) → ℚ)
    (Inv : (Nat → Nat) → Prop)
    (heq : ∀ τ, Inv τ → W₁ τ = W₂ τ) :
    ∀ (l : List Nat) (σ : Nat → Nat),
      (∀ τ x vx, x ∈ l → Inv τ → Inv (Function.update τ x vx)) →
      Inv σ → Zrec valR W₁ l σ = Zrec valR W₂ l σ
  | [], σ, _, h => heq σ h
  | n :: ns, σ, hstep, h => by
    simp only [Zrec]
    congr 1
    apply List.map_congr_left
    intro v _
    exact Zrec_congr_pred valR W₁ W₂ Inv heq ns (Function.update σ n v)
      (fun τ x vx hx => hstep τ x vx (List.mem_cons_of_mem n hx))
      (hstep σ n v (by simp) h)

/-- A factor that reads no coordinate updated along `l` pulls out of `Zrec`. -/
theorem Zrec_mul_left (valR : Nat → List Nat) (F W : (Nat → Nat) → ℚ) (S : List Nat)
    (hF : DependsOn F S) :
    ∀ (l : List Nat) (σ : Nat → Nat), (∀ x ∈ S, x ∉ l) →
      Zrec valR (fun τ => F τ * W τ) l σ = F σ * Zrec valR W l σ
  | [], σ, _ => rfl
  | n :: ns, σ, hd => by
    simp only [Zrec]
    have : ∀ v, Zrec valR (fun τ => F τ * W τ) ns (Function.update σ n v)
        = F σ * Zrec valR W ns (Function.update σ n v) := by
      intro v
      rw [Zrec_mul_left valR F W S hF ns (Function.update σ n v)
        (fun x hx => fun hmem => hd x hx (List.mem_cons_of_mem n hmem))]
      have : F (Function.update σ n v) = F σ := by
        apply hF
        intro x hx
        have hne : x ≠ n := by
          intro hxe; exact hd x hx (hxe ▸ List.mem_cons_self n ns)
        simp [Function.update_noteq hne]
      rw [this]
    calc ((valR n).map fun v => Zrec valR (fun τ => F τ * W τ) ns (Function.update σ n v)).sum
        = ((valR n).map fun v => F σ * Zrec valR W ns (Function.update σ n v)).sum := by
          congr 1; exact List.map_congr_left (fun v _ => this v)
      _ = F σ * ((valR n).map fun v => Zrec valR W ns (Function.update σ n v)).sum := by
          rw [List.sum_map_mul_left]

/-- Symmetrical version: the independent factor on the right. -/
theorem Zrec_mul_right (valR : Nat → List Nat) (W G : (Nat → Nat) → ℚ) (S : List Nat)
    (hG : DependsOn G S) (l : List Nat) (σ : Nat → Nat) (hd : ∀ x ∈ S, x ∉ l) :
    Zrec valR (fun τ => W τ * G τ) l σ = Zrec valR W l σ * G σ := by
  have h1 : Zrec valR (fun τ => G τ * W τ) l σ = G σ * Zrec valR W l σ :=
    Zrec_mul_left valR G W S hG l σ hd
  have h2 : Zrec valR (fun τ => W τ * G τ) l σ = Zrec valR (fun τ => G τ * W τ) l σ :=
    Zrec_congr_pred valR _ _ (fun _ => True)
      (fun τ _ => mul_comm (W τ) (G τ)) l σ (fun _ _ _ _ _ => trivial) trivial
  rw [h2, h1, mul_comm]

theorem Zrec_append (valR : Nat → List Nat) (W : (Nat → Nat) → ℚ) :
    ∀ (l₁ l₂ : List Nat) (σ : Nat → Nat),
      Zrec valR W (l₁ ++ l₂) σ = Zrec valR (fun τ => Zrec valR W l₂ τ) l₁ σ
  | [], l₂, σ => rfl
  | n :: ns, l₂, σ => by
    simp only [List.cons_append, Zrec]
    congr 1
    apply List.map_congr_left
    intro v _
    exact Zrec_append valR W ns l₂ (Function.update σ n v)

/-- `Zrec` of a `W` reading only `S` depends on the base only through `S`
coordinates not updated along the way. -/
theorem Zrec_base_agree (valR : Nat → List Nat) (W : (Nat → Nat) → ℚ) (S : List Nat)
    (hW : DependsOn W S) :
    ∀ (l : List Nat) (σ σ' : Nat → Nat), (∀ x ∈ S, x ∈ l ∨ σ x = σ' x) →
      Zrec valR W l σ = Zrec valR W l σ'
  | [], σ, σ', h => hW σ σ' (fun x hx => (h x hx).elim (fun hc => absurd hc (by simp)) id)
  | n :: ns, σ, σ', h => by
    simp only [Zrec]
    congr 1
    apply List.map_congr_left
    intro v _
    apply Zrec_base_agree valR W S hW ns
    intro x hx
    rcases h x hx with hmem | heq
    · rcases List.mem_cons.mp hmem with hxn | hxns
      · right; subst hxn; simp
      · left; exact hxns
    · by_cases hxn : x = n
      · right; subst hxn; simp
      · right; simp [Function.update_noteq hxn, heq]

theorem Zrec_perm (valR : Nat → List Nat) (W : (Nat → Nat) → ℚ) :
    ∀ {l₁ l₂ : List Nat}, List.Perm l₁ l₂ → l₁.Nodup →
      ∀ σ : Nat → Nat, Zrec valR W l₁ σ = Zrec valR W l₂ σ := by
  intro l₁ l₂ hp
  induction hp with
  | nil => intro _ σ; rfl
  | cons a p ih =>
    intro hnd σ
    simp only [Zrec]
    congr 1
    apply List.map_congr_left
    intro v _
    exact ih (List.Nodup.of_cons hnd) (Function.update σ a v)
  | swap a b l =>
    intro hnd σ
    have hab : b ≠ a := by
      intro hba; subst hba; simp at hnd
    simp only [Zrec]
    rw [list_sum_map_comm]
    congr 1
    apply List.map_congr_left
    intro va _
    congr 1
    apply List.map_congr_left
    intro vb _
    rw [Function.update_comm hab]
  | trans p₁ p₂ ih₁ ih₂ =>
    intro hnd σ
    rw [ih₁ hnd σ, ih₂ (p₁.nodup_iff.mp hnd) σ]

theorem Zrec_valR_congr (valR₁ valR₂ : Nat → List Nat) (W : (Nat → Nat) → ℚ) :
    ∀ (l : List Nat) (σ : Nat → Nat), (∀ x ∈ l, valR₁ x = valR₂ x) →
      Zrec valR₁ W l σ = Zrec valR₂ W l σ
  | [], σ, _ => rfl
  | n :: ns, σ, h => by
    simp only [Zrec]
    rw [← h n (by simp)]
    congr 1
    apply List.map_congr_left
    intro v _
    exact Zrec_valR_congr valR₁ valR₂ W ns (Function.update σ n v)
      (fun x hx => h x (List.mem_cons_of_mem n hx))

theorem list_sum_pos (l : List ℚ) (h : ∀ a ∈ l, 0 < a) (hne : l ≠ []) : 0 < l.sum := by
  induction l with
  | nil => exact absurd rfl hne
  | cons a l ih =>
    simp only [List.sum_cons]
    rcases List.eq_nil_or_concat l with h0 | _
    all_goals {
      have ha := h a (by simp)
      rcases Decidable.em (l = []) with hl | hl
      · simp [hl]; exact ha
      · have := ih (fun b hb => h b (List.mem_cons_of_mem a hb)) hl
        positivity }

theorem Zrec_pos (valR : Nat → List Nat) (W : (Nat → Nat) → ℚ)
    (hW : ∀ τ, 0 < W τ) :
    ∀ (l : List Nat) (σ : Nat → Nat), (∀ n ∈ l, valR n ≠ []) → 0 < Zrec valR W l σ
  | [], σ, _ => hW σ
  | n :: ns, σ, h => by
    simp only [Zrec]
    apply list_sum_pos
    · intro a ha
      obtain ⟨v, _, rfl⟩ := List.mem_map.mp ha
      exact Zrec_pos valR W hW ns (Function.update σ n v)
        (fun x hx => h x (List.mem_cons_of_mem n hx))
    · simp only [ne_eq, List.map_eq_nil_iff]
      exact h n (by simp)

/-! ## Structural lemmas about rose trees -/

theorem RTree.strongInd (P : RTree → Prop)
    (step : ∀ n ts, (∀ c ∈ ts, P c) → P (RTree.mk n ts)) : ∀ t, P t := by
  have H : ∀ (N : Nat) (t : RTree), sizeOf t ≤ N → P t := by
    intro N
    induction N with
    | zero =>
      intro t h
      cases t with
      | mk n ts => simp at h
    | succ N ih =>
      intro t h
      cases t with
      | mk n ts =>
        apply step
        intro c hc
        apply ih
        have hlt := List.sizeOf_lt_of_mem hc
        simp at h
        omega
  intro t; exact H (sizeOf t) t le_rfl

theorem nodes_mk (n : Nat) (ts : List RTree) :
    (RTree.mk n ts).nodes = n :: nodesList ts := by
  simp [RTree.nodes]

theorem tEdges_mk (E : List Edge) (n : Nat) (ts : List RTree) :
    tEdges E (RTree.mk n ts) = tEdgesList E n ts := by
  simp [tEdges]

theorem mess_mk (E : List Edge) (k : Nat) (w : Nat → Nat → ℚ) (we : Edge → Nat → Nat → ℚ)
    (fixed : List (Nat × Nat)) (parent : Nat) (n : Nat) (ts : List RTree) (vp : Nat) :
    mess E k w we fixed parent (RTree.mk n ts) vp
      = ((valRange fixed k n).map (fun v =>
          uterm w n v * epair E we parent n vp v * messProd E k w we fixed n ts v)).sum := by
  simp [mess]

theorem RTree.root_mem_nodes (t : RTree) : t.root ∈ t.nodes := by
  cases t with
  | mk n ts => simp [RTree.root, nodes_mk]

theorem mem_nodesList {x : Nat} : ∀ {ts : List RTree},
    x ∈ nodesList ts ↔ ∃ c ∈ ts, x ∈ c.nodes
  | [] => by simp [nodesList]
  | c :: cs => by
    simp only [nodesList, List.mem_append, @mem_nodesList x cs]
    constructor
    · rintro (h | ⟨c', hc', hx⟩)
      · exact ⟨c, by simp, h⟩
      · exact ⟨c', List.mem_cons_of_mem c hc', hx⟩
    · rintro ⟨c', hc', hx⟩
      rcases List.mem_cons.mp hc' with rfl | hc'
      · exact Or.inl hx
      · exact Or.inr ⟨c', hc', hx⟩

/-- Endpoints of tree edges are tree nodes. -/
theorem tEdges_endpoints (E : List Edge) : ∀ (t : RTree),
    ∀ e ∈ tEdges E t, e.1 ∈ t.nodes ∧ e.2 ∈ t.nodes := by
  apply RTree.strongInd (fun t => ∀ e ∈ tEdges E t, e.1 ∈ t.nodes ∧ e.2 ∈ t.nodes)
  intro n ts IH e he
  rw [tEdges_mk] at he
  rw [nodes_mk]
  -- characterize membership in tEdgesList
  induction ts with
  | nil => simp [tEdgesList] at he
  | cons c cs ihl =>
    simp only [tEdgesList, List.mem_cons, List.mem_append] at he
    rcases he with he | he | he
    · -- the oriented edge (n, c.root)
      have hr : c.root ∈ nodesList (c :: cs) := by
        rw [mem_nodesList]
        exact ⟨c, by simp, RTree.root_mem_nodes c⟩
      subst he
      unfold orient
      by_cases hmem : (n, c.root) ∈ E
      · simp only [hmem, if_pos]
        exact ⟨by simp, by simp [hr]⟩
      · simp only [hmem, if_neg, not_false_iff]
        exact ⟨by simp [hr], by simp⟩
    · -- inside the subtree of c
      have := IH c (by simp) e he
      constructor
      · refine List.mem_cons_of_mem n ?_
        rw [mem_nodesList]; exact ⟨c, by simp, this.1⟩
      · refine List.mem_cons_of_mem n ?_
        rw [mem_nodesList]; exact ⟨c, by simp, this.2⟩
    · -- in the younger siblings
      have hsub := ihl (fun c' hc' => IH c' (List.mem_cons_of_mem c hc')) he
      have emb : ∀ x : Nat, x ∈ n :: nodesList cs → x ∈ n :: nodesList (c :: cs) := by
        intro x hx
        rcases List.mem_cons.mp hx with rfl | hx
        · simp
        · refine List.mem_cons_of_mem n ?_
          simp only [nodesList, List.mem_append]
          exact Or.inr hx
      exact ⟨emb _ hsub.1, emb _ hsub.2⟩

/-! ## The engine computes the flat partition sum -/

theorem orient_cases (E : List Edge) (a b : Nat) :
    orient E a b = (a, b) ∨ orient E a b = (b, a) := by
  unfold orient
  by_cases h : (a, b) ∈ E <;> simp [h]

theorem epairE_congr (we : Edge → Nat → Nat → ℚ) (e : Edge) (σ τ : Nat → Nat)
    (h1 : σ e.1 = τ e.1) (h2 : σ e.2 = τ e.2) : epairE we σ e = epairE we τ e := by
  unfold epairE
  rw [h1, h2]

/-- A product of unary and edge factors reads the assignment only at the
given nodes and edge endpoints. -/
theorem prodForm_dependsOn (w : Nat → Nat → ℚ) (we : Edge → Nat → Nat → ℚ)
    (nodesL : List Nat) (edges : List Edge) (S : List Nat)
    (hn : ∀ x ∈ nodesL, x ∈ S) (he : ∀ e ∈ edges, e.1 ∈ S ∧ e.2 ∈ S) :
    DependsOn (fun τ => (nodesL.map (fun x => uterm w x (τ x))).prod
      * (edges.map (epairE we τ)).prod) S := by
  intro σ τ hag
  have h1 : nodesL.map (fun x => uterm w x (σ x)) = nodesL.map (fun x => uterm w x (τ x)) :=
    List.map_congr_left (fun x hx => by rw [hag x (hn x hx)])
  have h2 : edges.map (epairE we σ) = edges.map (epairE we τ) :=
    List.map_congr_left (fun e hee =>
      epairE_congr we e σ τ (hag e.1 (he e hee).1) (hag e.2 (he e hee).2))
  simp only [h1, h2]

/-- Bridge between the per-edge factor of a full assignment and the
parent-child factor used inside a message, when the parent's value is
pinned by the assignment. -/
theorem epairE_orient (E : List Edge) (we : Edge → Nat → Nat → ℚ)
    (n cr v : Nat) (τ : Nat → Nat) (hτ : τ n = v) :
    epairE we τ (orient E n cr) = epair E we n cr v (τ cr) := by
  subst hτ
  unfold epairE epair orient
  by_cases hmem : (n, cr) ∈ E
  · simp only [hmem, if_true]
    by_cases h1 : 0 < τ n <;> by_cases h2 : 0 < τ cr <;> simp [h1, h2]
  · simp [hmem]

/-- Key lemma, list version: summing the total weight of a forest of sibling
subtrees over all assignments (with the common tree-parent `n` pinned to `v`)
yields the product of the children's messages at `v`. -/
theorem messProd_flat (E : List Edge) (k : Nat) (w : Nat → Nat → ℚ)
    (we : Edge → Nat → Nat → ℚ) (fixed : List (Nat × Nat)) (n v : Nat) :
    ∀ (ts : List RTree),
      (∀ c ∈ ts, c.nodes.Nodup → ∀ (par vp : Nat) (σ : Nat → Nat),
        mess E k w we fixed par c vp
          = Zrec (valRange fixed k)
              (fun τ => weightOf w we c.nodes (tEdges E c) τ * epair E we par c.root vp (τ c.root))
              c.nodes σ) →
      (nodesList ts).Nodup → n ∉ nodesList ts →
      ∀ σ : Nat → Nat, σ n = v →
        Zrec (valRange fixed k)
          (fun τ => ((nodesList ts).map (fun x => uterm w x (τ x))).prod
            * ((tEdgesList E n ts).map (epairE we τ)).prod)
          (nodesList ts) σ
          = messProd E k w we fixed n ts v
  | [], _, _, _, σ, hσ => by
    simp [nodesList, tEdgesList, Zrec, messProd]
  | c :: cs, IH, hnd, hn, σ, hσ => by
    have hnodes : nodesList (c :: cs) = c.nodes ++ nodesList cs := rfl
    have hedges : tEdgesList E n (c :: cs)
        = orient E n c.root :: (tEdges E c ++ tEdgesList E n cs) := rfl
    rw [hnodes] at hnd hn ⊢
    obtain ⟨hnd1, hnd2, hdisj⟩ := List.nodup_append.mp hnd
    have hn1 : n ∉ c.nodes := fun hc => hn (List.mem_append.mpr (Or.inl hc))
    have hn2 : n ∉ nodesList cs := fun hc => hn (List.mem_append.mpr (Or.inr hc))
    -- abbreviations
    set valR := valRange fixed k with hvalR
    set A := fun τ : Nat → Nat => (c.nodes.map (fun x => uterm w x (τ x))).prod
      * ((orient E n c.root :: tEdges E c).map (epairE we τ)).prod with hA
    set B := fun τ : Nat → Nat => ((nodesList cs).map (fun x => uterm w x (τ x))).prod
      * ((tEdgesList E n cs).map (epairE we τ)).prod with hB
    -- the weight splits pointwise as A * B
    have hsplit : ∀ τ : Nat → Nat,
        ((c.nodes ++ nodesList cs).map (fun x => uterm w x (τ x))).prod
          * ((tEdgesList E n (c :: cs)).map (epairE we τ)).prod = A τ * B τ := by
      intro τ
      rw [hedges, hA, hB]
      simp only [List.map_append, List.prod_append, List.map_cons, List.prod_cons]
      ring
    -- dependency sets
    have hAdep : DependsOn A (n :: c.nodes) := by
      rw [hA]
      apply prodForm_dependsOn
      · intro x hx; exact List.mem_cons_of_mem n hx
      · intro e hee
        rcases List.mem_cons.mp hee with rfl | hee
        · rcases orient_cases E n c.root with ho | ho
          · rw [ho]
            exact ⟨by simp, List.mem_cons_of_mem n (RTree.root_mem_nodes c)⟩
          · rw [ho]
            exact ⟨List.mem_cons_of_mem n (RTree.root_mem_nodes c), by simp⟩
        · have := tEdges_endpoints E c e hee
          exact ⟨List.mem_cons_of_mem n this.1, List.mem_cons_of_mem n this.2⟩
    have hBdep : DependsOn B (n :: nodesList cs) := by
      rw [hB]
      apply prodForm_dependsOn
      · intro x hx; exact List.mem_cons_of_mem n hx
      · intro e hee
        have := tEdges_endpoints E (RTree.mk n cs) e (by rw [tEdges_mk]; exact hee)
        rw [nodes_mk] at this
        exact this
    have hGdep : DependsOn (fun τ => Zrec valR B (nodesList cs) τ) (n :: nodesList cs) := by
      intro σ' τ' hag
      exact Zrec_base_agree valR B (n :: nodesList cs) hBdep (nodesList cs) σ' τ'
        (fun x hx => Or.inr (hag x hx))
    -- main calculation
    calc Zrec valR (fun τ => ((c.nodes ++ nodesList cs).map (fun x => uterm w x (τ x))).prod
            * ((tEdgesList E n (c :: cs)).map (epairE we τ)).prod)
          (c.nodes ++ nodesList cs) σ
        = Zrec valR (fun τ => A τ * B τ) (c.nodes ++ nodesList cs) σ := by
          exact Zrec_congr_pred valR _ _ (fun _ => True) (fun τ _ => hsplit τ) _ σ
            (fun _ _ _ _ _ => trivial) trivial
      _ = Zrec valR (fun τ => Zrec valR (fun τ' => A τ' * B τ') (nodesList cs) τ) c.nodes σ :=
          Zrec_append valR _ c.nodes (nodesList cs) σ
      _ = Zrec valR (fun τ => A τ * Zrec valR B (nodesList cs) τ) c.nodes σ := by
          apply Zrec_congr_pred valR _ _ (fun _ => True) _ _ σ (fun _ _ _ _ _ => trivial) trivial
          intro τ _
          apply Zrec_mul_left valR A B (n :: c.nodes) hAdep (nodesList cs) τ
          intro x hx
          rcases List.mem_cons.mp hx with rfl | hx
          · exact hn2
          · exact fun hmem => hdisj hx hmem
      _ = Zrec valR A c.nodes σ * Zrec valR B (nodesList cs) σ := by
          apply Zrec_mul_right valR A _ (n :: nodesList cs) hGdep c.nodes σ
          intro x hx
          rcases List.mem_cons.mp hx with rfl | hx
          · exact hn1
          · exact fun hmem => hdisj hmem hx
      _ = mess E k w we fixed n c v * messProd E k w we fixed n cs v := by
          congr 1
          · -- the A-part is exactly the subtree-c message
            have hmess := IH c (by simp) hnd1 n v σ
            rw [hmess]
            refine Zrec_congr_pred valR _ _ (fun τ => τ n = v) ?_ c.nodes σ ?_ hσ
            · intro τ hτ
              rw [hA]
              unfold weightOf
              simp only [List.map_cons, List.prod_cons]
              rw [epairE_orient E we n c.root v τ hτ]
              ring
            · intro τ x vx hx hτ
              have hxn : n ≠ x := fun hxe => hn1 (hxe ▸ hx)
              rw [Function.update_noteq hxn]
              exact hτ
          · exact messProd_flat E k w we fixed n v cs
              (fun c' hc' => IH c' (List.mem_cons_of_mem c hc')) hnd2 hn2 σ hσ
      _ = messProd E k w we fixed n (c :: cs) v := rfl

/-- A message equals the flat sum, over all assignments of the subtree's
nodes, of the subtree's total weight times the edge factor to the parent. -/
theorem mess_flat (E : List Edge) (k : Nat) (w : Nat → Nat → ℚ)
    (we : Edge → Nat → Nat → ℚ) (fixed : List (Nat × Nat)) :
    ∀ t : RTree, t.nodes.Nodup → ∀ (par vp : Nat) (σ : Nat → Nat),
      mess E k w we fixed par t vp
        = Zrec (valRange fixed k)
            (fun τ => weightOf w we t.nodes (tEdges E t) τ * epair E we par t.root vp (τ t.root))
            t.nodes σ := by
  apply RTree.strongInd (fun t => t.nodes.Nodup → ∀ (par vp : Nat) (σ : Nat → Nat),
    mess E k w we fixed par t vp
      = Zrec (valRange fixed k)
          (fun τ => weightOf w we t.nodes (tEdges E t) τ * epair E we par t.root vp (τ t.root))
          t.nodes σ)
  intro n ts IH hnd par vp σ
  rw [nodes_mk] at hnd
  obtain ⟨hn, hnd'⟩ := List.nodup_cons.mp hnd
  rw [mess_mk]
  rw [nodes_mk, tEdges_mk]
  show _ = Zrec (valRange fixed k) _ (n :: nodesList ts) σ
  simp only [Zrec]
  congr 1
  apply List.map_congr_left
  intro v _
  set valR := valRange fixed k with hvalR
  set τ₀ := Function.update σ n v with hτ₀def
  have hτ₀ : τ₀ n = v := by rw [hτ₀def]; simp
  set F := fun τ : Nat → Nat => uterm w n (τ n) * epair E we par n vp (τ n) with hF
  set B := fun τ : Nat → Nat => ((nodesList ts).map (fun x => uterm w x (τ x))).prod
    * ((tEdgesList E n ts).map (epairE we τ)).prod with hB
  have hFdep : DependsOn F [n] := by
    intro σ' τ' hag
    rw [hF]
    simp only
    rw [hag n (by simp)]
  calc uterm w n v * epair E we par n vp v * messProd E k w we fixed n ts v
      = F τ₀ * messProd E k w we fixed n ts v := by
        rw [hF]; simp only [hτ₀]
    _ = F τ₀ * Zrec valR B (nodesList ts) τ₀ := by
        rw [messProd_flat E k w we fixed n v ts
          (fun c hc hcnd par' vp' σ' => IH c hc hcnd par' vp' σ') hnd' hn τ₀ hτ₀]
    _ = Zrec valR (fun τ => F τ * B τ) (nodesList ts) τ₀ := by
        rw [Zrec_mul_left valR F B [n] hFdep (nodesList ts) τ₀
          (fun x hx => by simp at hx; subst hx; exact hn)]
    _ = Zrec valR (fun τ => weightOf w we (n :: nodesList ts) (tEdgesList E n ts) τ
          * epair E we par (RTree.mk n ts).root vp (τ (RTree.mk n ts).root))
          (nodesList ts) τ₀ := by
        apply Zrec_congr_pred valR _ _ (fun _ => True) _ _ τ₀ (fun _ _ _ _ _ => trivial) trivial
        intro τ _
        rw [hF, hB]
        unfold weightOf
        simp only [List.map_cons, List.prod_cons, RTree.root]
        ring

/-- The final root combination equals the flat sum over all assignments of
the non-root nodes, with the root pinned to the output index. -/
theorem tree_nodes_eq (t : RTree) : t.nodes = t.root :: nodesList t.childList := by
  cases t with
  | mk n ts => simp [nodes_mk, RTree.root, RTree.childList]

theorem rootMarg_flat (E : List Edge) (k : Nat) (w : Nat → Nat → ℚ)
    (we : Edge → Nat → Nat → ℚ) (fixed : List (Nat × Nat))
    (t : RTree) (hnd : t.nodes.Nodup) (val : Nat) (σ : Nat → Nat) :
    rootMarg E k w we fixed t val
      = Zrec (valRange fixed k) (weightOf w we t.nodes (tEdges E t))
          (nodesList t.childList) (Function.update σ t.root val) := by
  cases t with
  | mk n ts =>
    rw [nodes_mk] at hnd
    obtain ⟨hn, hnd'⟩ := List.nodup_cons.mp hnd
    unfold rootMarg
    simp only [RTree.root, RTree.childList]
    set valR := valRange fixed k with hvalR
    set τ₀ := Function.update σ n val with hτ₀def
    have hτ₀ : τ₀ n = val := by rw [hτ₀def]; simp
    set F := fun τ : Nat → Nat => uterm w n (τ n) with hF
    set B := fun τ : Nat → Nat => ((nodesList ts).map (fun x => uterm w x (τ x))).prod
      * ((tEdgesList E n ts).map (epairE we τ)).prod with hB
    have hFdep : DependsOn F [n] := by
      intro σ' τ' hag
      rw [hF]
      simp only
      rw [hag n (by simp)]
    calc uterm w n val * messProd E k w we fixed n ts val
        = F τ₀ * messProd E k w we fixed n ts val := by rw [hF]; simp only [hτ₀]
      _ = F τ₀ * Zrec valR B (nodesList ts) τ₀ := by
          rw [messProd_flat E k w we fixed n val ts
            (fun c hc hcnd par' vp' σ' => mess_flat E k w we fixed c hcnd par' vp' σ')
            hnd' hn τ₀ hτ₀]
      _ = Zrec valR (fun τ => F τ * B τ) (nodesList ts) τ₀ := by
          rw [Zrec_mul_left valR F B [n] hFdep (nodesList ts) τ₀
            (fun x hx => by simp at hx; subst hx; exact hn)]
      _ = Zrec valR (weightOf w we (RTree.mk n ts).nodes (tEdges E (RTree.mk n ts)))
            (nodesList ts) τ₀ := by
          apply Zrec_congr_pred valR _ _ (fun _ => True) _ _ τ₀ (fun _ _ _ _ _ => trivial) trivial
          intro τ _
          rw [hF, hB, nodes_mk, tEdges_mk]
          unfold weightOf
          simp only [List.map_cons, List.prod_cons]
          ring

/-- The sum of the `naive_SPA` output vector is the flat partition sum of the
root's component (provided the root itself is not pinned). -/
theorem spa_sum (E : List Edge) (k : Nat) (w : Nat → Nat → ℚ)
    (we : Edge → Nat → Nat → ℚ) (fixed : List (Nat × Nat)) (r : Nat)
    (hnd : (treeFrom E r).nodes.Nodup) (hr : fixed.lookup r = none) :
    (naive_SPA E k w we r fixed).sum
      = Zrec (valRange fixed k)
          (weightOf w we (treeFrom E r).nodes (tEdges E (treeFrom E r)))
          (treeFrom E r).nodes (fun _ => 0) := by
  have hroot : (treeFrom E r).root = r := rfl
  rw [tree_nodes_eq (treeFrom E r), hroot]
  show _ = Zrec (valRange fixed k) _ (r :: nodesList (treeFrom E r).childList) (fun _ => 0)
  simp only [Zrec]
  have hvalr : valRange fixed k r = List.range (k + 1) := by
    unfold valRange
    rw [hr]
  rw [hvalr]
  unfold naive_SPA
  congr 1
  apply List.map_congr_left
  intro val _
  rw [rootMarg_flat E k w we fixed (treeFrom E r) hnd val (fun _ => 0), hroot]
  rw [tree_nodes_eq (treeFrom E r), hroot]

/-! ## Unfolding lemmas for the recursive graph functions -/

theorem ancestors_none {E : List Edge} {x : Nat} (h : parentOf E x = none) :
    ancestors E x = [x] := by
  rw [ancestors]
  cases hp : parentOf E x with
  | none => simp
  | some p => rw [hp] at h; cases h

theorem ancestors_some {E : List Edge} {x p : Nat} (h : parentOf E x = some p) :
    ancestors E x = x :: ancestors E p := by
  rw [ancestors]
  cases hp : parentOf E x with
  | none => rw [hp] at h; cases h
  | some q => rw [hp] at h; cases h; simp

theorem rootOf_none {E : List Edge} {x : Nat} (h : parentOf E x = none) :
    rootOf E x = x := by
  rw [rootOf]
  cases hp : parentOf E x with
  | none => simp
  | some p => rw [hp] at h; cases h

theorem rootOf_some {E : List Edge} {x p : Nat} (h : parentOf E x = some p) :
    rootOf E x = rootOf E p := by
  rw [rootOf]
  cases hp : parentOf E x with
  | none => rw [hp] at h; cases h
  | some q => rw [hp] at h; cases h; simp

theorem down_eq (E : List Edge) (n : Nat) :
    down E n = RTree.mk n ((childrenOf E n).map (down E)) := by
  rw [down]
  congr 1
  exact List.attach_map_coe _ _

theorem down_root (E : List Edge) (n : Nat) : (down E n).root = n := by
  rw [down_eq]; rfl

theorem up_eq_some {E : List Edge} {p q : Nat} (c : Nat) (h : parentOf E p = some q) :
    up E p c = RTree.mk p
      (((childrenOf E p).filter (fun x => x != c)).map (down E) ++ [up E q p]) := by
  rw [up]
  cases hp : parentOf E p with
  | none => rw [hp] at h; cases h
  | some q' => rw [hp] at h; cases h; rfl

theorem up_eq_none {E : List Edge} {p : Nat} (c : Nat) (h : parentOf E p = none) :
    up E p c = RTree.mk p
      (((childrenOf E p).filter (fun x => x != c)).map (down E)) := by
  rw [up]
  cases hp : parentOf E p with
  | none => simp
  | some q => rw [hp] at h; cases h

theorem up_root (E : List Edge) (p c : Nat) : (up E p c).root = p := by
  cases hp : parentOf E p with
  | none => rw [up_eq_none c hp]; rfl
  | some q => rw [up_eq_some c hp]; rfl

theorem treeFrom_eq_some {E : List Edge} {r p : Nat} (h : parentOf E r = some p) :
    treeFrom E r = RTree.mk r ((childrenOf E r).map (down E) ++ [up E p r]) := by
  unfold treeFrom
  rw [h]

theorem treeFrom_eq_none {E : List Edge} {r : Nat} (h : parentOf E r = none) :
    treeFrom E r = RTree.mk r ((childrenOf E r).map (down E)) := by
  unfold treeFrom
  rw [h]
  simp

/-! ## The `desc` (descendant) toolkit -/

theorem desc_refl (E : List Edge) (x : Nat) : desc E x x := by
  unfold desc
  cases hp : parentOf E x with
  | none => rw [ancestors_none hp]; simp
  | some p => rw [ancestors_some hp]; simp

theorem desc_le {E : List Edge} : ∀ {x n : Nat}, desc E x n → n ≤ x := by
  intro x
  induction x using Nat.strong_induction_on with
  | _ x IH =>
    intro n h
    unfold desc at h
    cases hp : parentOf E x with
    | none =>
      rw [ancestors_none hp] at h
      simp at h
      omega
    | some p =>
      rw [ancestors_some hp] at h
      rcases List.mem_cons.mp h with rfl | h
      · omega
      · have hplt := parentOf_lt E hp
        have := IH p hplt h
        omega

theorem desc_of_parent {E : List Edge} {x p : Nat} (h : parentOf E x = some p) :
    desc E x p := by
  unfold desc
  rw [ancestors_some h]
  exact List.mem_cons_of_mem x (desc_refl E p)

theorem rootOf_eq_of_desc {E : List Edge} : ∀ {x n : Nat}, desc E x n →
    rootOf E x = rootOf E n := by
  intro x
  induction x using Nat.strong_induction_on with
  | _ x IH =>
    intro n h
    unfold desc at h
    cases hp : parentOf E x with
    | none =>
      rw [ancestors_none hp] at h
      simp at h
      rw [h]
    | some p =>
      rw [ancestors_some hp] at h
      rcases List.mem_cons.mp h with rfl | h
      · rfl
      · rw [rootOf_some hp]
        exact IH p (parentOf_lt E hp) h

theorem desc_trans {E : List Edge} : ∀ {x a b : Nat}, desc E x a → desc E a b →
    desc E x b := by
  intro x
  induction x using Nat.strong_induction_on with
  | _ x IH =>
    intro a b hxa hab
    unfold desc at hxa
    cases hp : parentOf E x with
    | none =>
      rw [ancestors_none hp] at hxa
      simp at hxa
      subst hxa
      exact hab
    | some p =>
      rw [ancestors_some hp] at hxa
      rcases List.mem_cons.mp hxa with rfl | hxa
      · exact hab
      · have : desc E p b := IH p (parentOf_lt E hp) hxa hab
        unfold desc
        rw [ancestors_some hp]
        exact List.mem_cons_of_mem x this

theorem desc_root (E : List Edge) : ∀ x : Nat, desc E x (rootOf E x) := by
  intro x
  induction x using Nat.strong_induction_on with
  | _ x IH =>
    cases hp : parentOf E x with
    | none => rw [rootOf_none hp]; exact desc_refl E x
    | some p =>
      rw [rootOf_some hp]
      exact desc_trans (desc_of_parent hp) (IH p (parentOf_lt E hp))

theorem desc_antisymm {E : List Edge} {a b : Nat} (h1 : desc E a b) (h2 : desc E b a) :
    a = b := by
  have := desc_le h1
  have := desc_le h2
  omega

theorem desc_linear {E : List Edge} : ∀ {x a b : Nat}, desc E x a → desc E x b →
    desc E a b ∨ desc E b a := by
  intro x
  induction x using Nat.strong_induction_on with
  | _ x IH =>
    intro a b hxa hxb
    unfold desc at hxa hxb
    cases hp : parentOf E x with
    | none =>
      rw [ancestors_none hp] at hxa hxb
      simp at hxa hxb
      subst hxa; subst hxb
      exact Or.inl (desc_refl E _)
    | some p =>
      rw [ancestors_some hp] at hxa hxb
      rcases List.mem_cons.mp hxa with ha | ha
      · subst ha
        left
        unfold desc
        rw [ancestors_some hp]
        exact hxb
      · rcases List.mem_cons.mp hxb with hb | hb
        · subst hb
          right
          unfold desc
          rw [ancestors_some hp]
          exact List.mem_cons_of_mem _ ha
        · exact IH p (parentOf_lt E hp) ha hb

/-- Membership in a parent chain steps through a child of the target. -/
theorem desc_step {E : List Edge} (hWF : WFE E) : ∀ {x n : Nat}, desc E x n → x ≠ n →
    ∃ c ∈ childrenOf E n, desc E x c := by
  intro x
  induction x using Nat.strong_induction_on with
  | _ x IH =>
    intro n h hne
    unfold desc at h
    cases hp : parentOf E x with
    | none =>
      rw [ancestors_none hp] at h
      simp at h
      exact absurd h.symm hne
    | some p =>
      rw [ancestors_some hp] at h
      rcases List.mem_cons.mp h with rfl | h
      · exact absurd rfl hne
      · by_cases hpn : p = n
        · subst hpn
          refine ⟨x, ?_, desc_refl E x⟩
          have := parentOf_mem E hp
          exact mem_childrenOf_of_mem this (parentOf_lt E hp)
        · obtain ⟨c, hc, hdc⟩ := IH p (parentOf_lt E hp) h hpn
          exact ⟨c, hc, desc_trans (desc_of_parent hp) hdc⟩

/-- Characterization of descent through the children of a node. -/
theorem desc_iff_step {E : List Edge} (hWF : WFE E) (x n : Nat) :
    desc E x n ↔ x = n ∨ ∃ c ∈ childrenOf E n, desc E x c := by
  constructor
  · intro h
    by_cases hx : x = n
    · exact Or.inl hx
    · exact Or.inr (desc_step hWF h hx)
  · rintro (rfl | ⟨c, hc, hdc⟩)
    · exact desc_refl E x
    · have h1 : parentOf E c = some n :=
        parentOf_eq_of_mem hWF (childrenOf_mem hc).1
      exact desc_trans hdc (desc_of_parent h1)

/-- Two distinct children of the same node have disjoint descendant sets. -/
theorem desc_child_unique {E : List Edge} (hWF : WFE E) {n c₁ c₂ x : Nat}
    (h1 : c₁ ∈ childrenOf E n) (h2 : c₂ ∈ childrenOf E n)
    (hd1 : desc E x c₁) (hd2 : desc E x c₂) : c₁ = c₂ := by
  have hp1 : parentOf E c₁ = some n := parentOf_eq_of_mem hWF (childrenOf_mem h1).1
  have hp2 : parentOf E c₂ = some n := parentOf_eq_of_mem hWF (childrenOf_mem h2).1
  have key : ∀ {a b : Nat}, desc E a b → parentOf E a = some n → parentOf E b = some n →
      a = b := by
    intro a b hab hpa hpb
    by_cases he : a = b
    · exact he
    · unfold desc at hab
      rw [ancestors_some hpa] at hab
      rcases List.mem_cons.mp hab with rfl | hab
      · rfl
      · have : desc E n b := hab
        have hnb := desc_le this
        have := parentOf_lt E hpb
        omega
  rcases desc_linear hd1 hd2 with h | h
  · exact key h hp1 hp2
  · exact (key h hp2 hp1).symm

theorem parentOf_snd {E : List Edge} (hWF : WFE E) {e : Edge} (he : e ∈ E) :
    parentOf E e.2 = some e.1 := by
  cases e with
  | mk a b => exact parentOf_eq_of_mem hWF he

theorem desc_of_mem_snd {E : List Edge} (hWF : WFE E) {e : Edge} (he : e ∈ E) :
    desc E e.2 e.1 :=
  desc_of_parent (parentOf_snd hWF he)

theorem orient_pos {E : List Edge} {a b : Nat} (h : (a, b) ∈ E) :
    orient E a b = (a, b) := by
  unfold orient
  simp [h]

theorem nodesList_cons (t : RTree) (ts : List RTree) :
    nodesList (t :: ts) = t.nodes ++ nodesList ts := by
  simp [nodesList]

theorem tEdgesList_cons (E : List Edge) (n : Nat) (t : RTree) (ts : List RTree) :
    tEdgesList E n (t :: ts) = orient E n t.root :: (tEdges E t ++ tEdgesList E n ts) := by
  simp [tEdgesList]

theorem nodesList_append : ∀ (l₁ l₂ : List RTree),
    nodesList (l₁ ++ l₂) = nodesList l₁ ++ nodesList l₂
  | [], l₂ => by simp [nodesList]
  | t :: ts, l₂ => by
    rw [List.cons_append, nodesList_cons, nodesList_cons, nodesList_append ts l₂,
      List.append_assoc]

theorem tEdgesList_append (E : List Edge) (n : Nat) : ∀ (l₁ l₂ : List RTree),
    tEdgesList E n (l₁ ++ l₂) = tEdgesList E n l₁ ++ tEdgesList E n l₂
  | [], l₂ => by simp [tEdgesList]
  | t :: ts, l₂ => by
    rw [List.cons_append, tEdgesList_cons, tEdgesList_cons, tEdgesList_append E n ts l₂]
    simp [List.append_assoc]

/-- The full specification of the `down` subtree, given the specification of
all child subtrees (induction core). -/
theorem down_core (E : List Edge) (hWF : WFE E) (n : Nat)
    (IHc : ∀ c ∈ childrenOf E n,
      ((∀ x, x ∈ (down E c).nodes ↔ desc E x c) ∧ (down E c).nodes.Nodup)
      ∧ ((∀ e, e ∈ tEdges E (down E c) ↔ e ∈ E ∧ desc E e.1 c)
        ∧ ((tEdges E (down E c)).map Prod.snd).Nodup)) :
    ((∀ x, x ∈ (down E n).nodes ↔ desc E x n) ∧ (down E n).nodes.Nodup)
    ∧ ((∀ e, e ∈ tEdges E (down E n) ↔ e ∈ E ∧ desc E e.1 n)
      ∧ ((tEdges E (down E n)).map Prod.snd).Nodup) := by
  -- membership of nodes in a sublist of the children blocks
  have hmemN : ∀ cs' : List Nat, (∀ y ∈ cs', y ∈ childrenOf E n) → ∀ x,
      (x ∈ nodesList (cs'.map (down E)) ↔ ∃ c ∈ cs', desc E x c) := by
    intro cs' hsub x
    rw [mem_nodesList]
    constructor
    · rintro ⟨t, ht, hx⟩
      obtain ⟨c, hc, rfl⟩ := List.mem_map.mp ht
      exact ⟨c, hc, ((IHc c (hsub c hc)).1.1 x).mp hx⟩
    · rintro ⟨c, hc, hd⟩
      exact ⟨down E c, List.mem_map_of_mem _ hc, ((IHc c (hsub c hc)).1.1 x).mpr hd⟩
  -- membership of edges in a sublist of the children blocks
  have hmemE : ∀ cs' : List Nat, (∀ y ∈ cs', y ∈ childrenOf E n) → ∀ e : Edge,
      (e ∈ tEdgesList E n (cs'.map (down E))
        ↔ ∃ c ∈ cs', e = (n, c) ∨ (e ∈ E ∧ desc E e.1 c)) := by
    intro cs'
    induction cs' with
    | nil => intro _ e; simp [tEdgesList]
    | cons c cs' ih =>
      intro hsub e
      have hc : c ∈ childrenOf E n := hsub c (by simp)
      rw [List.map_cons, tEdgesList_cons, down_root, List.mem_cons, List.mem_append]
      rw [orient_pos (childrenOf_mem hc).1]
      rw [ih (fun y hy => hsub y (List.mem_cons_of_mem c hy)) e]
      rw [(IHc c hc).2.1 e]
      constructor
      · rintro (rfl | h | ⟨c', hc', h⟩)
        · exact ⟨c, by simp, Or.inl rfl⟩
        · exact ⟨c, by simp, Or.inr h⟩
        · exact ⟨c', List.mem_cons_of_mem c hc', h⟩
      · rintro ⟨c', hc', h⟩
        rcases List.mem_cons.mp hc' with rfl | hc'
        · rcases h with rfl | h
          · exact Or.inl rfl
          · exact Or.inr (Or.inl h)
        · exact Or.inr (Or.inr ⟨c', hc', h⟩)
  -- every snd in a child's edge block is a strict descendant of that child
  have hsnddesc : ∀ c ∈ childrenOf E n, ∀ y ∈ (tEdges E (down E c)).map Prod.snd,
      desc E y c ∧ c < y := by
    intro c hc y hy
    obtain ⟨e, he, rfl⟩ := List.mem_map.mp hy
    obtain ⟨heE, hdesc⟩ := ((IHc c hc).2.1 e).mp he
    have h1 : desc E e.2 e.1 := desc_of_mem_snd hWF heE
    have h2 : c ≤ e.1 := desc_le hdesc
    have h3 : e.1 < e.2 := hWF.1 e heE
    exact ⟨desc_trans h1 hdesc, by omega⟩
  -- collective snd membership
  have hsndmem : ∀ cs' : List Nat, (∀ y ∈ cs', y ∈ childrenOf E n) →
      ∀ y ∈ (tEdgesList E n (cs'.map (down E))).map Prod.snd, ∃ c ∈ cs', desc E y c := by
    intro cs' hsub y hy
    obtain ⟨e, he, rfl⟩ := List.mem_map.mp hy
    obtain ⟨c, hc, h⟩ := (hmemE cs' hsub e).mp he
    rcases h with rfl | ⟨heE, hdesc⟩
    · exact ⟨c, hc, desc_refl E c⟩
    · exact ⟨c, hc, desc_trans (desc_of_mem_snd hWF heE) hdesc⟩
  refine ⟨⟨?_, ?_⟩, ?_, ?_⟩
  · -- node membership
    intro x
    rw [down_eq, nodes_mk, List.mem_cons, hmemN (childrenOf E n) (fun y hy => hy) x]
    exact (desc_iff_step hWF x n).symm
  · -- node Nodup
    rw [down_eq, nodes_mk]
    rw [List.nodup_cons]
    constructor
    · intro hmem
      obtain ⟨c, hc, hd⟩ := (hmemN (childrenOf E n) (fun y hy => hy) n).mp hmem
      have := desc_le hd
      have := (childrenOf_mem hc).2
      omega
    · have : ∀ cs' : List Nat, (∀ y ∈ cs', y ∈ childrenOf E n) → cs'.Nodup →
          (nodesList (cs'.map (down E))).Nodup := by
        intro cs'
        induction cs' with
        | nil => intro _ _; simp [nodesList]
        | cons c cs' ih =>
          intro hsub hnd
          have hc : c ∈ childrenOf E n := hsub c (by simp)
          rw [List.map_cons, nodesList_cons, List.nodup_append]
          obtain ⟨hch, hct⟩ := List.nodup_cons.mp hnd
          refine ⟨(IHc c hc).1.2, ih (fun y hy => hsub y (List.mem_cons_of_mem c hy)) hct, ?_⟩
          intro x hx hx'
          have hdc : desc E x c := ((IHc c hc).1.1 x).mp hx
          obtain ⟨c', hc', hdc'⟩ :=
            (hmemN cs' (fun y hy => hsub y (List.mem_cons_of_mem c hy)) x).mp hx'
          have := desc_child_unique hWF hc (hsub c' (List.mem_cons_of_mem c hc')) hdc hdc'
          subst this
          exact hch hc'
      have hnd : (childrenOf E n).Nodup := by
        have hsub : (childrenOf E n).Sublist ((E.map Prod.snd)) := by
          unfold childrenOf
          exact List.Sublist.map Prod.snd (List.filter_sublist E)
        exact hsub.nodup hWF.2
      exact this (childrenOf E n) (fun y hy => hy) hnd
  · -- edge membership
    intro e
    rw [down_eq, tEdges_mk, hmemE (childrenOf E n) (fun y hy => hy) e]
    constructor
    · rintro ⟨c, hc, h⟩
      rcases h with rfl | ⟨heE, hdesc⟩
      · exact ⟨(childrenOf_mem hc).1, desc_refl E n⟩
      · have hcn : desc E c n :=
          desc_of_parent (parentOf_eq_of_mem hWF (childrenOf_mem hc).1)
        exact ⟨heE, desc_trans hdesc hcn⟩
    · rintro ⟨heE, hdesc⟩
      by_cases hn : e.1 = n
      · refine ⟨e.2, ?_, Or.inl ?_⟩
        · apply mem_childrenOf_of_mem
          · rw [← hn]; exact heE
          · rw [← hn]; exact hWF.1 e heE
        · cases e with
          | mk a b => simp at hn ⊢; exact hn
      · obtain ⟨c, hc, hdc⟩ := desc_step hWF hdesc hn
        exact ⟨c, hc, Or.inr ⟨heE, hdc⟩⟩
  · -- edge snd Nodup
    have key : ∀ cs' : List Nat, (∀ y ∈ cs', y ∈ childrenOf E n) → cs'.Nodup →
        ((tEdgesList E n (cs'.map (down E))).map Prod.snd).Nodup := by
      intro cs'
      induction cs' with
      | nil => intro _ _; simp [tEdgesList]
      | cons c cs' ih =>
        intro hsub hnd
        have hc : c ∈ childrenOf E n := hsub c (by simp)
        obtain ⟨hch, hct⟩ := List.nodup_cons.mp hnd
        have hsub' : ∀ y ∈ cs', y ∈ childrenOf E n :=
          fun y hy => hsub y (List.mem_cons_of_mem c hy)
        rw [List.map_cons, tEdgesList_cons, down_root, orient_pos (childrenOf_mem hc).1]
        rw [List.map_cons, List.map_append, List.nodup_cons, List.nodup_append]
        refine ⟨?_, (IHc c hc).2.2, ih hsub' hct, ?_⟩
        · -- c does not reappear as a snd deeper or in later blocks
          intro hcmem
          rcases List.mem_append.mp hcmem with hcin | hcin
          · have := (hsnddesc c hc c hcin).2
            omega
          · obtain ⟨c', hc', hd⟩ := hsndmem cs' hsub' c hcin
            have := desc_child_unique hWF hc (hsub' c' hc') (desc_refl E c) hd
            subst this
            exact hch hc'
        · -- block of c disjoint from later blocks
          intro y hy hy'
          have h1 := (hsnddesc c hc y hy).1
          obtain ⟨c', hc', h2⟩ := hsndmem cs' hsub' y hy'
          have := desc_child_unique hWF hc (hsub' c' hc') h1 h2
          subst this
          exact hch hc'
    have hnd : (childrenOf E n).Nodup := by
      have hsub : (childrenOf E n).Sublist ((E.map Prod.snd)) := by
        unfold childrenOf
        exact List.Sublist.map Prod.snd (List.filter_sublist E)
      exact hsub.nodup hWF.2
    rw [down_eq, tEdges_mk]
    exact key (childrenOf E n) (fun y hy => hy) hnd

/-- Full specification of `down` under `WFE`. -/
theorem down_ok (E : List Edge) (hWF : WFE E) : ∀ n : Nat,
    ((∀ x, x ∈ (down E n).nodes ↔ desc E x n) ∧ (down E n).nodes.Nodup)
    ∧ ((∀ e, e ∈ tEdges E (down E n) ↔ e ∈ E ∧ desc E e.1 n)
      ∧ ((tEdges E (down E n)).map Prod.snd).Nodup) := by
  have main : ∀ (N n : Nat), maxSnd E + 1 - n ≤ N →
      ((∀ x, x ∈ (down E n).nodes ↔ desc E x n) ∧ (down E n).nodes.Nodup)
      ∧ ((∀ e, e ∈ tEdges E (down E n) ↔ e ∈ E ∧ desc E e.1 n)
        ∧ ((tEdges E (down E n)).map Prod.snd).Nodup) := by
    intro N
    induction N with
    | zero =>
      intro n hn
      apply down_core E hWF n
      intro c hc
      have h1 := (childrenOf_mem hc).2
      have h2 := childrenOf_le_maxSnd hc
      omega
    | succ N IH =>
      intro n hn
      apply down_core E hWF n
      intro c hc
      apply IH
      have h1 := (childrenOf_mem hc).2
      have h2 := childrenOf_le_maxSnd hc
      omega
  intro n
  exact main (maxSnd E + 1 - n) n le_rfl

theorem orient_neg {E : List Edge} {a b : Nat} (h : (a, b) ∉ E) :
    orient E a b = (b, a) := by
  unfold orient
  simp [h]

theorem childrenOf_nodup {E : List Edge} (hWF : WFE E) (n : Nat) :
    (childrenOf E n).Nodup := by
  have hsub : (childrenOf E n).Sublist ((E.map Prod.snd)) := by
    unfold childrenOf
    exact List.Sublist.map Prod.snd (List.filter_sublist E)
  exact hsub.nodup hWF.2

theorem rootOf_child {E : List Edge} (hWF : WFE E) {n c : Nat}
    (hc : c ∈ childrenOf E n) : rootOf E c = rootOf E n :=
  rootOf_eq_of_desc (desc_of_parent (parentOf_eq_of_mem hWF (childrenOf_mem hc).1))

/-- Membership in the nodes of a forest of `down` subtrees. -/
theorem downs_nodes_mem (E : List Edge) (hWF : WFE E) (cs' : List Nat) (x : Nat) :
    x ∈ nodesList (cs'.map (down E)) ↔ ∃ c ∈ cs', desc E x c := by
  rw [mem_nodesList]
  constructor
  · rintro ⟨t, ht, hx⟩
    obtain ⟨c, hc, rfl⟩ := List.mem_map.mp ht
    exact ⟨c, hc, (((down_ok E hWF c).1.1) x).mp hx⟩
  · rintro ⟨c, hc, hd⟩
    exact ⟨down E c, List.mem_map_of_mem _ hc, (((down_ok E hWF c).1.1) x).mpr hd⟩

/-- Nodes of `down` subtrees of distinct children of a common parent have no
duplicates. -/
theorem downs_nodes_nodup (E : List Edge) (hWF : WFE E) (n : Nat) :
    ∀ cs' : List Nat, (∀ y ∈ cs', y ∈ childrenOf E n) → cs'.Nodup →
      (nodesList (cs'.map (down E))).Nodup
  | [], _, _ => by simp [nodesList]
  | c :: cs', hsub, hnd => by
    have hc : c ∈ childrenOf E n := hsub c (by simp)
    obtain ⟨hch, hct⟩ := List.nodup_cons.mp hnd
    have hsub' : ∀ y ∈ cs', y ∈ childrenOf E n :=
      fun y hy => hsub y (List.mem_cons_of_mem c hy)
    rw [List.map_cons, nodesList_cons, List.nodup_append]
    refine ⟨(down_ok E hWF c).1.2, downs_nodes_nodup E hWF n cs' hsub' hct, ?_⟩
    intro x hx hx'
    have hdc : desc E x c := (((down_ok E hWF c).1.1) x).mp hx
    obtain ⟨c', hc', hdc'⟩ := (downs_nodes_mem E hWF cs' x).mp hx'
    have := desc_child_unique hWF hc (hsub' c' hc') hdc hdc'
    subst this
    exact hch hc'

/-- Membership in the edges of a forest of `down` subtrees hanging under `n`. -/
theorem downs_edges_mem (E : List Edge) (hWF : WFE E) (n : Nat) :
    ∀ cs' : List Nat, (∀ y ∈ cs', y ∈ childrenOf E n) → ∀ e : Edge,
      (e ∈ tEdgesList E n (cs'.map (down E))
        ↔ ∃ c ∈ cs', e = (n, c) ∨ (e ∈ E ∧ desc E e.1 c))
  | [], _, e => by simp [tEdgesList]
  | c :: cs', hsub, e => by
    have hc : c ∈ childrenOf E n := hsub c (by simp)
    have hsub' : ∀ y ∈ cs', y ∈ childrenOf E n :=
      fun y hy => hsub y (List.mem_cons_of_mem c hy)
    rw [List.map_cons, tEdgesList_cons, down_root, List.mem_cons, List.mem_append]
    rw [orient_pos (childrenOf_mem hc).1]
    rw [downs_edges_mem E hWF n cs' hsub' e]
    rw [(down_ok E hWF c).2.1 e]
    constructor
    · rintro (rfl | h | ⟨c', hc', h⟩)
      · exact ⟨c, by simp, Or.inl rfl⟩
      · exact ⟨c, by simp, Or.inr h⟩
      · exact ⟨c', List.mem_cons_of_mem c hc', h⟩
    · rintro ⟨c', hc', h⟩
      rcases List.mem_cons.mp hc' with rfl | hc'
      · rcases h with rfl | h
        · exact Or.inl rfl
        · exact Or.inr (Or.inl h)
      · exact Or.inr (Or.inr ⟨c', hc', h⟩)

theorem downs_edges_snd_desc (E : List Edge) (hWF : WFE E) (n : Nat)
    (cs' : List Nat) (hsub : ∀ y ∈ cs', y ∈ childrenOf E n) :
    ∀ y ∈ (tEdgesList E n (cs'.map (down E))).map Prod.snd, ∃ c ∈ cs', desc E y c := by
  intro y hy
  obtain ⟨e, he, rfl⟩ := List.mem_map.mp hy
  obtain ⟨c, hc, h⟩ := (downs_edges_mem E hWF n cs' hsub e).mp he
  rcases h with rfl | ⟨heE, hdesc⟩
  · exact ⟨c, hc, desc_refl E c⟩
  · exact ⟨c, hc, desc_trans (desc_of_mem_snd hWF heE) hdesc⟩

theorem down_edges_snd_strict (E : List Edge) (hWF : WFE E) (c : Nat) :
    ∀ y ∈ (tEdges E (down E c)).map Prod.snd, desc E y c ∧ c < y := by
  intro y hy
  obtain ⟨e, he, rfl⟩ := List.mem_map.mp hy
  obtain ⟨heE, hdesc⟩ := ((down_ok E hWF c).2.1 e).mp he
  have h1 : desc E e.2 e.1 := desc_of_mem_snd hWF heE
  have h2 : c ≤ e.1 := desc_le hdesc
  have h3 : e.1 < e.2 := hWF.1 e heE
  exact ⟨desc_trans h1 hdesc, by omega⟩

theorem downs_edges_snd_nodup (E : List Edge) (hWF : WFE E) (n : Nat) :
    ∀ cs' : List Nat, (∀ y ∈ cs', y ∈ childrenOf E n) → cs'.Nodup →
      ((tEdgesList E n (cs'.map (down E))).map Prod.snd).Nodup
  | [], _, _ => by simp [tEdgesList]
  | c :: cs', hsub, hnd => by
    have hc : c ∈ childrenOf E n := hsub c (by simp)
    obtain ⟨hch, hct⟩ := List.nodup_cons.mp hnd
    have hsub' : ∀ y ∈ cs', y ∈ childrenOf E n :=
      fun y hy => hsub y (List.mem_cons_of_mem c hy)
    rw [List.map_cons, tEdgesList_cons, down_root, orient_pos (childrenOf_mem hc).1]
    rw [List.map_cons, List.map_append, List.nodup_cons, List.nodup_append]
    refine ⟨?_, (down_ok E hWF c).2.2, downs_edges_snd_nodup E hWF n cs' hsub' hct, ?_⟩
    · intro hcmem
      rcases List.mem_append.mp hcmem with hcin | hcin
      · have := (down_edges_snd_strict E hWF c c hcin).2
        omega
      · obtain ⟨c', hc', hd⟩ := downs_edges_snd_desc E hWF n cs' hsub' c hcin
        have := desc_child_unique hWF hc (hsub' c' hc') (desc_refl E c) hd
        subst this
        exact hch hc'
    · intro y hy hy'
      have h1 := (down_edges_snd_strict E hWF c y hy).1
      obtain ⟨c', hc', h2⟩ := downs_edges_snd_desc E hWF n cs' hsub' y hy'
      have := desc_child_unique hWF hc (hsub' c' hc') h1 h2
      subst this
      exact hch hc'

/-- Full specification of `up` under `WFE`, for proper invocations (`p` is
the stored parent of `c`): it collects exactly the component of `p` minus
the subtree of `c`. -/
theorem up_ok (E : List Edge) (hWF : WFE E) : ∀ p : Nat, ∀ c : Nat, parentOf E c = some p →
    ((∀ x, x ∈ (up E p c).nodes ↔ (rootOf E x = rootOf E p ∧ ¬ desc E x c))
      ∧ (up E p c).nodes.Nodup)
    ∧ ((∀ e, e ∈ tEdges E (up E p c) ↔
          (e ∈ E ∧ rootOf E e.2 = rootOf E p ∧ ¬ desc E e.2 c))
      ∧ ((tEdges E (up E p c)).map Prod.snd).Nodup) := by
  intro p
  induction p using Nat.strong_induction_on with
  | _ p IH =>
    intro c hpc
    have hplt : p < c := parentOf_lt E hpc
    have hpcE : (p, c) ∈ E := parentOf_mem E hpc
    have hcchild : c ∈ childrenOf E p := mem_childrenOf_of_mem hpcE hplt
    have hnotpc : ¬ desc E p c := fun h => by have := desc_le h; omega
    set fcs := (childrenOf E p).filter (fun x => x != c) with hfcs
    have hfsub : ∀ y ∈ fcs, y ∈ childrenOf E p ∧ y ≠ c := by
      intro y hy
      rw [hfcs] at hy
      have h1 := List.mem_of_mem_filter hy
      have h2 := List.of_mem_filter hy
      simp at h2
      exact ⟨h1, h2⟩
    have hfsub1 : ∀ y ∈ fcs, y ∈ childrenOf E p := fun y hy => (hfsub y hy).1
    have hfnd : fcs.Nodup := by
      rw [hfcs]; exact (childrenOf_nodup hWF p).filter _
    have hfmem : ∀ y, y ∈ fcs ↔ (y ∈ childrenOf E p ∧ y ≠ c) := by
      intro y
      constructor
      · exact hfsub y
      · intro hyy
        rw [hfcs]
        exact List.mem_filter.mpr ⟨hyy.1, by simp [hyy.2]⟩
    have hfwd : ∀ x, (∃ c' ∈ fcs, desc E x c') → rootOf E x = rootOf E p ∧ ¬ desc E x c := by
      rintro x ⟨c', hc', hd⟩
      obtain ⟨hc'child, hc'ne⟩ := hfsub c' hc'
      constructor
      · rw [rootOf_eq_of_desc hd, rootOf_child hWF hc'child]
      · intro hdc
        exact hc'ne (desc_child_unique hWF hc'child hcchild hd hdc)
    have hbwd : ∀ x, ¬ desc E x c → desc E x p →
        x = p ∨ ∃ c' ∈ fcs, desc E x c' := by
      intro x hnc hxp
      rcases (desc_iff_step hWF x p).mp hxp with rfl | ⟨c'', hc'', hd''⟩
      · exact Or.inl rfl
      · right
        refine ⟨c'', (hfmem c'').mpr ⟨hc'', ?_⟩, hd''⟩
        intro hceq
        subst hceq
        exact hnc hd''
    have hdnotp : ∀ x, (∃ c' ∈ fcs, desc E x c') → desc E x p := by
      rintro x ⟨c', hc', hd⟩
      exact desc_trans hd
        (desc_of_parent (parentOf_eq_of_mem hWF (childrenOf_mem (hfsub1 c' hc')).1))
    have hpnotdown : p ∉ nodesList (fcs.map (down E)) := by
      intro hmem
      obtain ⟨c', hc', hd⟩ := (downs_nodes_mem E hWF fcs p).mp hmem
      have h1 := desc_le hd
      have h2 := (childrenOf_mem (hfsub1 c' hc')).2
      omega
    -- backward analysis for edges inside the down part
    have hebwd : ∀ e : Edge, e ∈ E → ¬ desc E e.2 c → desc E e.2 p → e.2 ≠ p →
        ∃ c' ∈ fcs, e = (p, c') ∨ (e ∈ E ∧ desc E e.1 c') := by
      intro e heE hnc hd2p h2p
      have hpe : parentOf E e.2 = some e.1 := parentOf_snd hWF heE
      have h1p : desc E e.1 p := by
        have h := hd2p
        unfold desc at h
        rw [ancestors_some hpe] at h
        rcases List.mem_cons.mp h with heq | h
        · exact absurd heq.symm h2p
        · exact h
      by_cases h1 : e.1 = p
      · refine ⟨e.2, (hfmem e.2).mpr ⟨?_, ?_⟩, Or.inl ?_⟩
        · apply mem_childrenOf_of_mem
          · rw [← h1]; exact heE
          · rw [← h1]; exact hWF.1 e heE
        · intro h2c
          rw [h2c] at hnc
          exact hnc (desc_refl E c)
        · obtain ⟨a, b⟩ := e
          simp at h1 ⊢
          exact h1
      · obtain ⟨c'', hc'', hd''⟩ := desc_step hWF h1p h1
        have hc''ne : c'' ≠ c := by
          intro hceq
          subst hceq
          exact hnc (desc_trans (desc_of_mem_snd hWF heE) hd'')
        exact ⟨c'', (hfmem c'').mpr ⟨hc'', hc''ne⟩, Or.inr ⟨heE, hd''⟩⟩
    -- forward direction for edges inside the down part
    have hefwd : ∀ e : Edge, (∃ c' ∈ fcs, e = (p, c') ∨ (e ∈ E ∧ desc E e.1 c')) →
        e ∈ E ∧ rootOf E e.2 = rootOf E p ∧ ¬ desc E e.2 c := by
      rintro e ⟨c', hc', h⟩
      obtain ⟨hc'child, hc'ne⟩ := hfsub c' hc'
      rcases h with rfl | ⟨heE, hdesc⟩
      · refine ⟨(childrenOf_mem hc'child).1, rootOf_child hWF hc'child, ?_⟩
        intro hdc
        exact hc'ne (desc_child_unique hWF hc'child hcchild (desc_refl E c') hdc)
      · have hd2 : desc E e.2 c' := desc_trans (desc_of_mem_snd hWF heE) hdesc
        refine ⟨heE, ?_, ?_⟩
        · rw [rootOf_eq_of_desc hd2, rootOf_child hWF hc'child]
        · intro hdc
          exact hc'ne (desc_child_unique hWF hc'child hcchild hd2 hdc)
    cases hq : parentOf E p with
    | none =>
      have hroot : rootOf E p = p := rootOf_none hq
      have hup := up_eq_none c hq
      have hcomp : ∀ x, rootOf E x = rootOf E p → desc E x p := by
        intro x hx
        have := desc_root E x
        rw [hx, hroot] at this
        exact this
      refine ⟨⟨?_, ?_⟩, ?_, ?_⟩
      · intro x
        rw [hup, nodes_mk, List.mem_cons, downs_nodes_mem E hWF fcs x]
        constructor
        · rintro (rfl | hex)
          · exact ⟨rfl, hnotpc⟩
          · exact hfwd x hex
        · rintro ⟨hex, hnc⟩
          exact hbwd x hnc (hcomp x hex)
      · rw [hup, nodes_mk, List.nodup_cons]
        exact ⟨hpnotdown, downs_nodes_nodup E hWF p fcs hfsub1 hfnd⟩
      · intro e
        rw [hup, tEdges_mk, downs_edges_mem E hWF p fcs hfsub1 e]
        constructor
        · exact hefwd e
        · rintro ⟨heE, hex, hnc⟩
          have hd2p : desc E e.2 p := hcomp e.2 hex
          have hpe : parentOf E e.2 = some e.1 := parentOf_snd hWF heE
          by_cases h2p : e.2 = p
          · rw [h2p, hq] at hpe
            cases hpe
          · exact hebwd e heE hnc hd2p h2p
      · rw [hup, tEdges_mk]
        exact downs_edges_snd_nodup E hWF p fcs hfsub1 hfnd
    | some q =>
      have hqlt : q < p := parentOf_lt E hq
      have hIH := IH q hqlt p hq
      have hrootpq : rootOf E p = rootOf E q := rootOf_some hq
      have hup := up_eq_some c hq
      have hpqE : (q, p) ∈ E := parentOf_mem E hq
      have hpqnot : (p, q) ∈ E → False := by
        intro hmem
        have := hWF.1 _ hmem
        simp at this
        omega
      have hnodes : (up E p c).nodes
          = p :: (nodesList (fcs.map (down E)) ++ (up E q p).nodes) := by
        rw [hup, nodes_mk, nodesList_append, nodesList_cons]
        simp [nodesList]
      have hedges : tEdges E (up E p c)
          = tEdgesList E p (fcs.map (down E)) ++ ((q, p) :: tEdges E (up E q p)) := by
        rw [hup, tEdges_mk, tEdgesList_append, tEdgesList_cons, up_root]
        rw [orient_neg hpqnot]
        simp [tEdgesList]
      have hdown_up_disj : ∀ x, x ∈ nodesList (fcs.map (down E)) →
          x ∈ (up E q p).nodes → False := by
        intro x hx hx'
        have h1 : desc E x p := hdnotp x ((downs_nodes_mem E hWF fcs x).mp hx)
        have h2 := (hIH.1.1 x).mp hx'
        exact h2.2 h1
      refine ⟨⟨?_, ?_⟩, ?_, ?_⟩
      · intro x
        rw [hnodes, List.mem_cons, List.mem_append, downs_nodes_mem E hWF fcs x]
        constructor
        · rintro (rfl | hex | hupx)
          · exact ⟨rfl, hnotpc⟩
          · exact hfwd x hex
          · obtain ⟨h1, h2⟩ := (hIH.1.1 x).mp hupx
            refine ⟨by rw [h1, hrootpq], ?_⟩
            intro hdc
            exact h2 (desc_trans hdc (desc_of_parent hpc))
        · rintro ⟨hex, hnc⟩
          by_cases hxp : desc E x p
          · rcases hbwd x hnc hxp with rfl | h
            · exact Or.inl rfl
            · exact Or.inr (Or.inl h)
          · refine Or.inr (Or.inr ((hIH.1.1 x).mpr ⟨?_, hxp⟩))
            rw [← hrootpq]
            exact hex
      · rw [hnodes, List.nodup_cons, List.nodup_append]
        refine ⟨?_, downs_nodes_nodup E hWF p fcs hfsub1 hfnd, hIH.1.2, hdown_up_disj⟩
        intro hmem
        rcases List.mem_append.mp hmem with hmem | hmem
        · exact hpnotdown hmem
        · exact ((hIH.1.1 p).mp hmem).2 (desc_refl E p)
      · intro e
        rw [hedges, List.mem_append, List.mem_cons,
          downs_edges_mem E hWF p fcs hfsub1 e]
        constructor
        · rintro (hex | rfl | hupe)
          · exact hefwd e hex
          · exact ⟨hpqE, hrootpq.symm ▸ rfl, hnotpc⟩
          · obtain ⟨h1, h2, h3⟩ := (hIH.2.1 e).mp hupe
            refine ⟨h1, by rw [h2, hrootpq], ?_⟩
            intro hdc
            exact h3 (desc_trans hdc (desc_of_parent hpc))
        · rintro ⟨heE, hex, hnc⟩
          have hpe : parentOf E e.2 = some e.1 := parentOf_snd hWF heE
          by_cases hd2p : desc E e.2 p
          · by_cases h2p : e.2 = p
            · right; left
              have he1 : e.1 = q := by
                rw [h2p, hq] at hpe
                exact (Option.some.inj hpe).symm
              obtain ⟨a, b⟩ := e
              simp at h2p he1 ⊢
              exact ⟨he1, h2p⟩
            · exact Or.inl (hebwd e heE hnc hd2p h2p)
          · refine Or.inr (Or.inr ((hIH.2.1 e).mpr ⟨heE, ?_, hd2p⟩))
            rw [← hrootpq]
            exact hex
      · rw [hedges, List.map_append, List.map_cons, List.nodup_append]
        refine ⟨downs_edges_snd_nodup E hWF p fcs hfsub1 hfnd, ?_, ?_⟩
        · rw [List.nodup_cons]
          constructor
          · intro hmem
            obtain ⟨e, he, h2⟩ := List.mem_map.mp hmem
            have := ((hIH.2.1 e).mp he).2.2
            rw [h2] at this
            exact this (desc_refl E p)
          · exact hIH.2.2
        · intro y hy hy'
          obtain ⟨c', hc', hyc'⟩ := downs_edges_snd_desc E hWF p fcs hfsub1 y hy
          have hyp : desc E y p := hdnotp y ⟨c', hc', hyc'⟩
          rcases List.mem_cons.mp hy' with rfl | hy'
          · have h1 := desc_le hyc'
            have h2 := (childrenOf_mem (hfsub1 c' hc')).2
            omega
          · obtain ⟨e, he, h2⟩ := List.mem_map.mp hy'
            have := ((hIH.2.1 e).mp he).2.2
            rw [h2] at this
            exact this hyp

/-- Full specification of `treeFrom` under `WFE`: its nodes are exactly the
connected component of `r` (as measured by equal forest roots), each once;
its edges are exactly the component's edges of `E`, each once. -/
theorem treeFrom_ok (E : List Edge) (hWF : WFE E) (r : Nat) :
    ((∀ x, x ∈ (treeFrom E r).nodes ↔ rootOf E x = rootOf E r)
      ∧ (treeFrom E r).nodes.Nodup)
    ∧ ((∀ e, e ∈ tEdges E (treeFrom E r) ↔ (e ∈ E ∧ rootOf E e.2 = rootOf E r))
      ∧ (tEdges E (treeFrom E r)).Nodup) := by
  have hchild_root : ∀ c ∈ childrenOf E r, rootOf E c = rootOf E r :=
    fun c hc => rootOf_child hWF hc
  cases hq : parentOf E r with
  | none =>
    have hroot : rootOf E r = r := rootOf_none hq
    have htf : treeFrom E r = down E r := by
      rw [treeFrom_eq_none hq, down_eq]
    have hdesc_iff : ∀ x, desc E x r ↔ rootOf E x = rootOf E r := by
      intro x
      constructor
      · intro h
        rw [rootOf_eq_of_desc h]
      · intro h
        have := desc_root E x
        rw [h, hroot] at this
        exact this
    rw [htf]
    obtain ⟨⟨hmem, hnd⟩, hemem, hesnd⟩ := down_ok E hWF r
    refine ⟨⟨?_, hnd⟩, ?_, List.Nodup.of_map Prod.snd hesnd⟩
    · intro x
      rw [hmem x, hdesc_iff x]
    · intro e
      rw [hemem e]
      constructor
      · rintro ⟨heE, hdesc⟩
        refine ⟨heE, ?_⟩
        rw [rootOf_eq_of_desc (desc_of_mem_snd hWF heE), rootOf_eq_of_desc hdesc]
      · rintro ⟨heE, hex⟩
        refine ⟨heE, ?_⟩
        have hpe : parentOf E e.2 = some e.1 := parentOf_snd hWF heE
        have h2r : e.2 ≠ r := by
          intro h
          rw [h, hq] at hpe
          cases hpe
        have hd2r : desc E e.2 r := (hdesc_iff e.2).mpr hex
        have h := hd2r
        unfold desc at h
        rw [ancestors_some hpe] at h
        rcases List.mem_cons.mp h with heq | h
        · exact absurd heq.symm h2r
        · exact h
  | some p =>
    have hIH := up_ok E hWF p r hq
    have hrootpr : rootOf E r = rootOf E p := rootOf_some hq
    have hprE : (p, r) ∈ E := parentOf_mem E hq
    have hplt : p < r := parentOf_lt E hq
    have hrpnot : (r, p) ∈ E → False := by
      intro hmem
      have := hWF.1 _ hmem
      simp at this
      omega
    have htf := treeFrom_eq_some hq
    have hnodes : (treeFrom E r).nodes
        = r :: (nodesList ((childrenOf E r).map (down E)) ++ (up E p r).nodes) := by
      rw [htf, nodes_mk, nodesList_append, nodesList_cons]
      simp [nodesList]
    have hedges : tEdges E (treeFrom E r)
        = tEdgesList E r ((childrenOf E r).map (down E))
          ++ ((p, r) :: tEdges E (up E p r)) := by
      rw [htf, tEdges_mk, tEdgesList_append, tEdgesList_cons, up_root]
      rw [orient_neg hrpnot]
      simp [tEdgesList]
    have hnotrr : ¬ desc E r r → False := fun h => h (desc_refl E r)
    have hdnotp : ∀ x, (∃ c' ∈ childrenOf E r, desc E x c') → desc E x r := by
      rintro x ⟨c', hc', hd⟩
      exact desc_trans hd
        (desc_of_parent (parentOf_eq_of_mem hWF (childrenOf_mem hc').1))
    have hrnotdown : r ∉ nodesList ((childrenOf E r).map (down E)) := by
      intro hmem
      obtain ⟨c', hc', hd⟩ := (downs_nodes_mem E hWF _ r).mp hmem
      have h1 := desc_le hd
      have h2 := (childrenOf_mem hc').2
      omega
    refine ⟨⟨?_, ?_⟩, ?_, ?_⟩
    · intro x
      rw [hnodes, List.mem_cons, List.mem_append, downs_nodes_mem E hWF _ x]
      constructor
      · rintro (rfl | ⟨c', hc', hd⟩ | hupx)
        · rfl
        · rw [rootOf_eq_of_desc hd, hchild_root c' hc']
        · rw [((hIH.1.1 x).mp hupx).1, hrootpr]
      · intro hex
        by_cases hxr : desc E x r
        · rcases (desc_iff_step hWF x r).mp hxr with rfl | ⟨c'', hc'', hd''⟩
          · exact Or.inl rfl
          · exact Or.inr (Or.inl ⟨c'', hc'', hd''⟩)
        · refine Or.inr (Or.inr ((hIH.1.1 x).mpr ⟨?_, hxr⟩))
          rw [← hrootpr]
          exact hex
    · rw [hnodes, List.nodup_cons, List.nodup_append]
      refine ⟨?_, downs_nodes_nodup E hWF r _ (fun y hy => hy) (childrenOf_nodup hWF r),
        hIH.1.2, ?_⟩
      · intro hmem
        rcases List.mem_append.mp hmem with hmem | hmem
        · exact hrnotdown hmem
        · exact ((hIH.1.1 r).mp hmem).2 (desc_refl E r)
      · intro x hx hx'
        have h1 : desc E x r := hdnotp x ((downs_nodes_mem E hWF _ x).mp hx)
        exact ((hIH.1.1 x).mp hx').2 h1
    · intro e
      rw [hedges, List.mem_append, List.mem_cons,
        downs_edges_mem E hWF r _ (fun y hy => hy) e]
      constructor
      · rintro (⟨c', hc', h⟩ | rfl | hupe)
        · rcases h with rfl | ⟨heE, hdesc⟩
          · exact ⟨(childrenOf_mem hc').1, hchild_root c' hc'⟩
          · refine ⟨heE, ?_⟩
            rw [rootOf_eq_of_desc (desc_trans (desc_of_mem_snd hWF heE) hdesc),
              hchild_root c' hc']
        · exact ⟨hprE, rfl⟩
        · obtain ⟨h1, h2, _⟩ := (hIH.2.1 e).mp hupe
          exact ⟨h1, by rw [h2, hrootpr]⟩
      · rintro ⟨heE, hex⟩
        have hpe : parentOf E e.2 = some e.1 := parentOf_snd hWF heE
        by_cases hd2r : desc E e.2 r
        · by_cases h2r : e.2 = r
          · right; left
            have he1 : e.1 = p := by
              rw [h2r, hq] at hpe
              exact (Option.some.inj hpe).symm
            obtain ⟨a, b⟩ := e
            simp at h2r he1 ⊢
            exact ⟨he1, h2r⟩
          · left
            have h1r : desc E e.1 r := by
              have h := hd2r
              unfold desc at h
              rw [ancestors_some hpe] at h
              rcases List.mem_cons.mp h with heq | h
              · exact absurd heq.symm h2r
              · exact h
            by_cases h1 : e.1 = r
            · refine ⟨e.2, ?_, Or.inl ?_⟩
              · apply mem_childrenOf_of_mem
                · rw [← h1]; exact heE
                · rw [← h1]; exact hWF.1 e heE
              · obtain ⟨a, b⟩ := e
                simp at h1 ⊢
                exact h1
            · obtain ⟨c'', hc'', hd''⟩ := desc_step hWF h1r h1
              exact ⟨c'', hc'', Or.inr ⟨heE, hd''⟩⟩
        · refine Or.inr (Or.inr ((hIH.2.1 e).mpr ⟨heE, ?_, hd2r⟩))
          rw [← hrootpr]
          exact hex
    · apply List.Nodup.of_map Prod.snd
      rw [hedges, List.map_append, List.map_cons, List.nodup_append]
      refine ⟨downs_edges_snd_nodup E hWF r _ (fun y hy => hy) (childrenOf_nodup hWF r),
        ?_, ?_⟩
      · rw [List.nodup_cons]
        constructor
        · intro hmem
          obtain ⟨e, he, h2⟩ := List.mem_map.mp hmem
          have := ((hIH.2.1 e).mp he).2.2
          rw [h2] at this
          exact this (desc_refl E r)
        · exact hIH.2.2
      · intro y hy hy'
        obtain ⟨c', hc', hyc'⟩ := downs_edges_snd_desc E hWF r _ (fun z hz => hz) y hy
        have hyr : desc E y r := hdnotp y ⟨c', hc', hyc'⟩
        rcases List.mem_cons.mp hy' with rfl | hy'
        · have h1 := desc_le hyc'
          have h2 := (childrenOf_mem hc').2
          omega
        · obtain ⟨e, he, h2⟩ := List.mem_map.mp hy'
          have := ((hIH.2.1 e).mp he).2.2
          rw [h2] at this
          exact this hyr

/-! ## Connected components and partition-function invariance -/

theorem sameComponent_of_desc {E : List Edge} : ∀ {x n : Nat}, desc E x n →
    sameComponent E x n := by
  intro x
  induction x using Nat.strong_induction_on with
  | _ x IH =>
    intro n h
    unfold desc at h
    cases hp : parentOf E x with
    | none =>
      rw [ancestors_none hp] at h
      simp at h
      rw [h]
      exact Relation.ReflTransGen.refl
    | some p =>
      rw [ancestors_some hp] at h
      rcases List.mem_cons.mp h with rfl | h
      · exact Relation.ReflTransGen.refl
      · have hstep : sameComponent E x p :=
          Relation.ReflTransGen.single (Or.inr (parentOf_mem E hp))
        exact hstep.trans (IH p (parentOf_lt E hp) h)

theorem sameComponent_symm {E : List Edge} {a b : Nat} (h : sameComponent E a b) :
    sameComponent E b a := by
  have hsym : Symmetric (fun x z => (x, z) ∈ E ∨ (z, x) ∈ E) := by
    intro x y hxy
    exact hxy.symm
  exact Relation.ReflTransGen.symmetric hsym h

/-- Under the generator's invariants, being in the same connected component
is the same as having the same forest root. -/
theorem sameComponent_iff_rootOf {E : List Edge} (hWF : WFE E) (a b : Nat) :
    sameComponent E a b ↔ rootOf E a = rootOf E b := by
  constructor
  · intro h
    induction h with
    | refl => rfl
    | tail _ hstep ih =>
      rename_i x y _
      rcases hstep with hxy | hxy
      · rw [ih, rootOf_some (parentOf_eq_of_mem hWF hxy)]
      · rw [ih, ← rootOf_some (parentOf_eq_of_mem hWF hxy)]
  · intro h
    have h1 : sameComponent E a (rootOf E a) := sameComponent_of_desc (desc_root E a)
    have h2 : sameComponent E b (rootOf E b) := sameComponent_of_desc (desc_root E b)
    rw [← h] at h2
    exact h1.trans (sameComponent_symm h2)

theorem treeFrom_nodes_perm {E : List Edge} (hWF : WFE E) {r r' : Nat}
    (h : rootOf E r = rootOf E r') :
    List.Perm (treeFrom E r).nodes (treeFrom E r').nodes := by
  apply (List.perm_ext_iff_of_nodup (treeFrom_ok E hWF r).1.2
    (treeFrom_ok E hWF r').1.2).mpr
  intro x
  rw [(treeFrom_ok E hWF r).1.1 x, (treeFrom_ok E hWF r').1.1 x, h]

theorem treeFrom_edges_perm {E : List Edge} (hWF : WFE E) {r r' : Nat}
    (h : rootOf E r = rootOf E r') :
    List.Perm (tEdges E (treeFrom E r)) (tEdges E (treeFrom E r')) := by
  apply (List.perm_ext_iff_of_nodup (treeFrom_ok E hWF r).2.2
    (treeFrom_ok E hWF r').2.2).mpr
  intro e
  rw [(treeFrom_ok E hWF r).2.1 e, (treeFrom_ok E hWF r').2.1 e, h]

/-- Root invariance of the partition sum, in terms of forest roots. -/
theorem spa_sum_eq_of_rootOf (E : List Edge) (k : Nat) (w : Nat → Nat → ℚ)
    (we : Edge → Nat → Nat → ℚ) {r r' : Nat} (hWF : WFE E)
    (hroot : rootOf E r = rootOf E r') :
    (naive_SPA E k w we r []).sum = (naive_SPA E k w we r' []).sum := by
  rw [spa_sum E k w we [] r (treeFrom_ok E hWF r).1.2 rfl,
    spa_sum E k w we [] r' (treeFrom_ok E hWF r').1.2 rfl]
  have hnp := treeFrom_nodes_perm hWF hroot
  have hep := treeFrom_edges_perm hWF hroot
  have hw : ∀ τ, weightOf w we (treeFrom E r).nodes (tEdges E (treeFrom E r)) τ
      = weightOf w we (treeFrom E r').nodes (tEdges E (treeFrom E r')) τ := by
    intro τ
    unfold weightOf
    congr 1
    · exact (hnp.map (fun x => uterm w x (τ x))).prod_eq
    · exact (hep.map (epairE we τ)).prod_eq
  calc Zrec (valRange [] k) (weightOf w we (treeFrom E r).nodes (tEdges E (treeFrom E r)))
        (treeFrom E r).nodes (fun _ => 0)
      = Zrec (valRange [] k)
          (weightOf w we (treeFrom E r').nodes (tEdges E (treeFrom E r')))
          (treeFrom E r).nodes (fun _ => 0) :=
        Zrec_congr_pred _ _ _ (fun _ => True) (fun τ _ => hw τ) _ _
          (fun _ _ _ _ _ => trivial) trivial
    _ = Zrec (valRange [] k)
          (weightOf w we (treeFrom E r').nodes (tEdges E (treeFrom E r')))
          (treeFrom E r').nodes (fun _ => 0) :=
        Zrec_perm _ _ hnp (treeFrom_ok E hWF r).1.2 _

/-! ## Helpers for the probability-table claims -/

theorem list_sum_div {α : Type} (l : List α) (f : α → ℚ) (c : ℚ) :
    (l.map (fun a => f a / c)).sum = (l.map f).sum / c := by
  induction l with
  | nil => simp
  | cons a l ih => simp [ih]; ring

theorem naive_SPA_getD (E : List Edge) (k : Nat) (w : Nat → Nat → ℚ)
    (we : Edge → Nat → Nat → ℚ) (i : Nat) (fixed : List (Nat × Nat))
    {val : Nat} (h : val ≤ k) :
    (naive_SPA E k w we i fixed).getD val 0
      = rootMarg E k w we fixed (treeFrom E i) val := by
  unfold naive_SPA
  have hlen : val < ((List.range (k + 1)).map
      (rootMarg E k w we fixed (treeFrom E i))).length := by
    simp
    omega
  rw [List.getD_eq_getElem _ _ hlen]
  simp

theorem sum_getD_range (E : List Edge) (k : Nat) (w : Nat → Nat → ℚ)
    (we : Edge → Nat → Nat → ℚ) (i : Nat) (fixed : List (Nat × Nat)) :
    ((List.range (k + 1)).map (fun val => (naive_SPA E k w we i fixed).getD val 0)).sum
      = (naive_SPA E k w we i fixed).sum := by
  have h : ∀ val ∈ List.range (k + 1),
      (naive_SPA E k w we i fixed).getD val 0
        = rootMarg E k w we fixed (treeFrom E i) val := by
    intro val hval
    have : val < k + 1 := List.mem_range.mp hval
    exact naive_SPA_getD E k w we i fixed (by omega)
  calc ((List.range (k + 1)).map (fun val => (naive_SPA E k w we i fixed).getD val 0)).sum
      = ((List.range (k + 1)).map (rootMarg E k w we fixed (treeFrom E i))).sum := by
        congr 1
        exact List.map_congr_left h
    _ = (naive_SPA E k w we i fixed).sum := rfl

theorem weightOf_pos (w : Nat → Nat → ℚ) (we : Edge → Nat → Nat → ℚ)
    (hw : ∀ n v, 0 < w n v) (hwe : ∀ e a b, 0 < we e a b)
    (nodesL : List Nat) (edges : List Edge) (τ : Nat → Nat) :
    0 < weightOf w we nodesL edges τ := by
  unfold weightOf
  apply mul_pos
  · apply List.prod_pos
    intro a ha
    obtain ⟨x, _, rfl⟩ := List.mem_map.mp ha
    unfold uterm
    by_cases h : 0 < τ x <;> simp [h, hw]
  · apply List.prod_pos
    intro a ha
    obtain ⟨e, _, rfl⟩ := List.mem_map.mp ha
    unfold epairE
    by_cases h : 0 < τ e.1 ∧ 0 < τ e.2 <;> simp [h, hwe]

/-- `Z(y)` is strictly positive for the (positive) exponential weights. -/
theorem get_Z_pos (E : List Edge) (k : Nat) (w : Nat → Nat → ℚ)
    (we : Edge → Nat → Nat → ℚ) (hWF : WFE E)
    (hw : ∀ n v, 0 < w n v) (hwe : ∀ e a b, 0 < we e a b) :
    0 < get_Z E k w we := by
  unfold get_Z
  rw [spa_sum E k w we [] 0 (treeFrom_ok E hWF 0).1.2 rfl]
  apply Zrec_pos
  · intro τ
    exact weightOf_pos w we hw hwe _ _ τ
  · intro n _
    unfold valRange
    simp [List.lookup]

/-! ## Claim C1 -/

/-- Claim C1: for every class `y` (whose exponential weight tables are
abstracted by `w`, `we`) and any two nodes `r`, `r'` of the same connected
component of the dependency forest produced by the generator (`WFE`), the sum
over all entries of `naive_SPA(r, y, {})` equals the sum over all entries of
`naive_SPA(r', y, {})`; in particular the partition function
`Z(y) = sum(naive_SPA(0, y))` does not depend on which root of node 0's
component is used. -/
theorem C1_partition_root_invariant (E : List Edge) (k : Nat)
    (w : Nat → Nat → ℚ) (we : Edge → Nat → Nat → ℚ) (r r' : Nat)
    (hWF : WFE E) (hcc : sameComponent E r r') :
    (naive_SPA E k w we r []).sum = (naive_SPA E k w we r' []).sum :=
  spa_sum_eq_of_rootOf E k w we hWF ((sameComponent_iff_rootOf hWF r r').mp hcc)

theorem C1_witness :
    WFE [(0, 1)] ∧ sameComponent [(0, 1)] 0 1 ∧
      (naive_SPA [(0, 1)] 2 (fun n v => (n + v + 1 : ℚ)) (fun e a b => (e.1 + a + b + 1 : ℚ)) 0 []).sum
        = (naive_SPA [(0, 1)] 2 (fun n v => (n + v + 1 : ℚ)) (fun e a b => (e.1 + a + b + 1 : ℚ)) 1 []).sum :=
  ⟨by decide, Relation.ReflTransGen.single (Or.inl (by decide)),
    C1_partition_root_invariant [(0, 1)] 2 (fun n v => (n + v + 1 : ℚ))
      (fun e a b => (e.1 + a + b + 1 : ℚ)) 0 1 (by decide)
      (Relation.ReflTransGen.single (Or.inl (by decide)))⟩

/-! ## Claim C2

The counterexample graph is `E = [(0,1),(2,3)]` with `m = 4`: node 1
attaches to node 0 and node 3 attaches to node 2, which `_generate_edges`
produces with positive probability for any `edge_prob` in `(0, 1)`.  Every
node of `range(4)` has an incident edge, so `P_vals_true` and `get_Z` run to
completion without a `KeyError` — yet the graph has two connected
components, `{0, 1}` and `{2, 3}`. -/

/-- On `E = [(0,1),(2,3)]` the tree grown from node 0 is its component
`{0, 1}` oriented away from 0. -/
theorem tf_twoComp_0 : treeFrom [(0, 1), (2, 3)] 0 = RTree.mk 0 [RTree.mk 1 []] := by
  have h1 : down [(0, 1), (2, 3)] 1 = RTree.mk 1 [] := by
    rw [down_eq]; rfl
  rw [treeFrom_eq_none (show parentOf [(0, 1), (2, 3)] 0 = none from rfl)]
  show RTree.mk 0 ([1].map (down [(0, 1), (2, 3)])) = _
  rw [List.map_cons, List.map_nil, h1]

/-- On `E = [(0,1),(2,3)]` the tree grown from node 2 is its component
`{2, 3}` oriented away from 2. -/
theorem tf_twoComp_2 : treeFrom [(0, 1), (2, 3)] 2 = RTree.mk 2 [RTree.mk 3 []] := by
  have h3 : down [(0, 1), (2, 3)] 3 = RTree.mk 3 [] := by
    rw [down_eq]; rfl
  rw [treeFrom_eq_none (show parentOf [(0, 1), (2, 3)] 2 = none from rfl)]
  show RTree.mk 2 ([3].map (down [(0, 1), (2, 3)])) = _
  rw [List.map_cons, List.map_nil, h3]

theorem tf_twoComp_0_nodes : (treeFrom [(0, 1), (2, 3)] 0).nodes = [0, 1] := by
  rw [tf_twoComp_0]
  simp [nodes_mk, nodesList]

theorem tf_twoComp_2_nodes : (treeFrom [(0, 1), (2, 3)] 2).nodes = [2, 3] := by
  rw [tf_twoComp_2]
  simp [nodes_mk, nodesList]

theorem tf_twoComp_0_edges :
    tEdges [(0, 1), (2, 3)] (treeFrom [(0, 1), (2, 3)] 0) = [(0, 1)] := by
  rw [tf_twoComp_0, tEdges_mk]
  simp [tEdgesList, tEdges_mk, RTree.root, orient]

theorem tf_twoComp_2_edges :
    tEdges [(0, 1), (2, 3)] (treeFrom [(0, 1), (2, 3)] 2) = [(2, 3)] := by
  rw [tf_twoComp_2, tEdges_mk]
  simp [tEdgesList, tEdges_mk, RTree.root, orient]

/-- Claim C2 as stated is false on a run the code completes: take
`E = [(0,1),(2,3)]` (`m = 4`, `k = 1`), all unary exponential weights `1`
and edge weights `exp(theta[((0,1),y1,y2)]) = 1`,
`exp(theta[((2,3),y1,y2)]) = 3`.  Node 2 lies in a different connected
component than node 0, so the entries
`p_solo[(2, val, y)] = naive_SPA(2, y)[val] / Z(y)` sum to the component
ratio `Z_{23}/Z_{01} = 6/4 = 3/2`, not `1`, because
`Z(y) = sum(naive_SPA(0, y))` normalizes node 0's component only. -/
theorem C2_counterexample :
    ¬ (((List.range (1 + 1)).map
        (fun val => p_solo [(0, 1), (2, 3)] 1 (fun _ _ => 1)
          (fun e _ _ => (e.1 + 1 : ℚ)) 2 val)).sum
      = 1) := by
  have hndA : (treeFrom [(0, 1), (2, 3)] 0).nodes.Nodup := by
    rw [tf_twoComp_0_nodes]; decide
  have hndB : (treeFrom [(0, 1), (2, 3)] 2).nodes.Nodup := by
    rw [tf_twoComp_2_nodes]; decide
  simp only [p_solo, get_Z]
  rw [list_sum_div, sum_getD_range,
    spa_sum [(0, 1), (2, 3)] 1 (fun _ _ => 1) (fun e _ _ => (e.1 + 1 : ℚ)) [] 2 hndB rfl,
    spa_sum [(0, 1), (2, 3)] 1 (fun _ _ => 1) (fun e _ _ => (e.1 + 1 : ℚ)) [] 0 hndA rfl,
    tf_twoComp_0_nodes, tf_twoComp_2_nodes, tf_twoComp_0_edges, tf_twoComp_2_edges]
  norm_num [Zrec, valRange, List.lookup, List.range_succ, weightOf, uterm, epairE,
    Function.update]

/-- Claim C2, amended: for every class `y` (with its positive exponential
weight tables `w`, `we`) and every node `i` that has an incident edge (so
that the code's `naive_SPA(i, y)` runs instead of raising `KeyError`) and
lies in the same connected component as node 0, the stored values
`p_solo[(i, val, y)] = naive_SPA(i, y)[val] / Z(y)` for `val = 0..k` sum to
exactly 1.  (For `i` in another component the sum is that component's
partition sum divided by `Z(y)`, which the counterexample shows can differ
from 1.) -/
theorem C2_p_solo_normalizes (E : List Edge) (k : Nat) (w : Nat → Nat → ℚ)
    (we : Edge → Nat → Nat → ℚ) (i : Nat) (hWF : WFE E)
    (hmem : ∃ e ∈ E, i = e.1 ∨ i = e.2)
    (hcc : sameComponent E 0 i)
    (hw : ∀ n v, 0 < w n v) (hwe : ∀ e a b, 0 < we e a b) :
    ((List.range (k + 1)).map (fun val => p_solo E k w we i val)).sum = 1 := by
  unfold p_solo
  rw [list_sum_div, sum_getD_range]
  have hroot : rootOf E i = rootOf E 0 :=
    ((sameComponent_iff_rootOf hWF 0 i).mp hcc).symm
  rw [spa_sum_eq_of_rootOf E k w we hWF hroot]
  have hZ : get_Z E k w we = (naive_SPA E k w we 0 []).sum := rfl
  rw [← hZ]
  exact div_self (ne_of_gt (get_Z_pos E k w we hWF hw hwe))

theorem C2_witness :
    WFE [(0, 1)] ∧ (∃ e ∈ ([(0, 1)] : List Edge), 1 = e.1 ∨ 1 = e.2) ∧
      sameComponent [(0, 1)] 0 1 ∧ (∀ n v : Nat, 0 < (2 : ℚ)) ∧
      ((List.range (1 + 1)).map
        (fun val => p_solo [(0, 1)] 1 (fun _ _ => 2) (fun _ _ _ => 2) 1 val)).sum = 1 :=
  ⟨by decide, ⟨(0, 1), by decide, by decide⟩,
    Relation.ReflTransGen.single (Or.inl (by decide)), fun _ _ => by norm_num,
    C2_p_solo_normalizes [(0, 1)] 1 (fun _ _ => 2) (fun _ _ _ => 2) 1 (by decide)
      ⟨(0, 1), by decide, by decide⟩
      (Relation.ReflTransGen.single (Or.inl (by decide)))
      (fun _ _ => by norm_num) (fun _ _ _ => by norm_num)⟩

/-! ## Claim C3 -/

/-- Summing `naive_SPA(i, y, {j: vj})` over the output index marginalizes out
node `i`: the result is the unnormalized `naive_SPA(j, y)[vj]` (for `i`, `j`
distinct nodes of a common component). -/
theorem spa_fixed_sum (E : List Edge) (k : Nat) (w : Nat → Nat → ℚ)
    (we : Edge → Nat → Nat → ℚ) (hWF : WFE E) {i j : Nat} (hij : i ≠ j)
    (hroot : rootOf E i = rootOf E j) {vj : Nat} (hvj : vj ≤ k) :
    ((List.range (k + 1)).map (fun vi => (naive_SPA E k w we i [(j, vj)]).getD vi 0)).sum
      = (naive_SPA E k w we j []).getD vj 0 := by
  rw [sum_getD_range]
  have hlookup : ([(j, vj)] : List (Nat × Nat)).lookup i = none := by
    have : (i == j) = false := by simp [hij]
    simp [List.lookup, this]
  rw [spa_sum E k w we [(j, vj)] i (treeFrom_ok E hWF i).1.2 hlookup]
  have hnp := treeFrom_nodes_perm hWF hroot
  have hep := treeFrom_edges_perm hWF hroot
  have hwj : ∀ τ, weightOf w we (treeFrom E i).nodes (tEdges E (treeFrom E i)) τ
      = weightOf w we (treeFrom E j).nodes (tEdges E (treeFrom E j)) τ := by
    intro τ
    unfold weightOf
    congr 1
    · exact (hnp.map _).prod_eq
    · exact (hep.map _).prod_eq
  rw [Zrec_congr_pred _ _
    (weightOf w we (treeFrom E j).nodes (tEdges E (treeFrom E j)))
    (fun _ => True) (fun τ _ => hwj τ) _ _ (fun _ _ _ _ _ => trivial) trivial]
  rw [Zrec_perm _ _ hnp (treeFrom_ok E hWF i).1.2]
  have hndj : ((treeFrom E j).root :: nodesList (treeFrom E j).childList).Nodup := by
    have := (treeFrom_ok E hWF j).1.2
    rwa [tree_nodes_eq] at this
  have hrootj : (treeFrom E j).root = j := rfl
  rw [hrootj] at hndj
  obtain ⟨hjrest, hndrest⟩ := List.nodup_cons.mp hndj
  rw [tree_nodes_eq (treeFrom E j), hrootj]
  show ((valRange [(j, vj)] k j).map _).sum = _
  have hvalj : valRange [(j, vj)] k j = [vj] := by simp [valRange, List.lookup]
  rw [hvalj]
  simp only [List.map_cons, List.map_nil, List.sum_cons, List.sum_nil, add_zero]
  have hvalcongr : ∀ x ∈ nodesList (treeFrom E j).childList,
      valRange [(j, vj)] k x = valRange [] k x := by
    intro x hx
    have hxj : x ≠ j := fun hxe => hjrest (hxe ▸ hx)
    have : (x == j) = false := by simp [hxj]
    simp [valRange, List.lookup, this]
  rw [Zrec_valR_congr (valRange [(j, vj)] k) (valRange [] k) _ _ _ hvalcongr]
  have hRM := rootMarg_flat E k w we [] (treeFrom E j) (treeFrom_ok E hWF j).1.2 vj
    (fun _ => 0)
  rw [hrootj, tree_nodes_eq (treeFrom E j), hrootj] at hRM
  rw [← hRM]
  exact (naive_SPA_getD E k w we j [] hvj).symm

/-- Summing `naive_SPA(j, y, {i: vi})[vj]` over the pinned value `vi`
also marginalizes out node `i`. -/
theorem spa_fixed_sum_pinned (E : List Edge) (k : Nat) (w : Nat → Nat → ℚ)
    (we : Edge → Nat → Nat → ℚ) (hWF : WFE E) {i j : Nat} (hij : i ≠ j)
    (hroot : rootOf E i = rootOf E j) {vj : Nat} (hvj : vj ≤ k) :
    ((List.range (k + 1)).map (fun vi => (naive_SPA E k w we j [(i, vi)]).getD vj 0)).sum
      = (naive_SPA E k w we j []).getD vj 0 := by
  have hndj : ((treeFrom E j).root :: nodesList (treeFrom E j).childList).Nodup := by
    have := (treeFrom_ok E hWF j).1.2
    rwa [tree_nodes_eq] at this
  have hrootj : (treeFrom E j).root = j := rfl
  rw [hrootj] at hndj
  obtain ⟨hjrest, hndrest⟩ := List.nodup_cons.mp hndj
  have himem : i ∈ nodesList (treeFrom E j).childList := by
    have h1 : i ∈ (treeFrom E j).nodes := ((treeFrom_ok E hWF j).1.1 i).mpr hroot
    rw [tree_nodes_eq, hrootj] at h1
    rcases List.mem_cons.mp h1 with heq | h1
    · exact absurd heq hij
    · exact h1
  have hpermi : List.Perm (nodesList (treeFrom E j).childList)
      (i :: (nodesList (treeFrom E j).childList).erase i) := List.perm_cons_erase himem
  have hterm : ∀ vi, (naive_SPA E k w we j [(i, vi)]).getD vj 0
      = Zrec (valRange [] k)
          (weightOf w we (treeFrom E j).nodes (tEdges E (treeFrom E j)))
          ((nodesList (treeFrom E j).childList).erase i)
          (Function.update (Function.update (fun _ => 0) j vj) i vi) := by
    intro vi
    rw [naive_SPA_getD E k w we j [(i, vi)] hvj]
    have hRM := rootMarg_flat E k w we [(i, vi)] (treeFrom E j)
      (treeFrom_ok E hWF j).1.2 vj (fun _ => 0)
    rw [hrootj] at hRM
    rw [hRM]
    rw [Zrec_perm _ _ hpermi hndrest]
    show ((valRange [(i, vi)] k i).map _).sum = _
    have hvali : valRange [(i, vi)] k i = [vi] := by simp [valRange, List.lookup]
    rw [hvali]
    simp only [List.map_cons, List.map_nil, List.sum_cons, List.sum_nil, add_zero]
    have hvalcongr : ∀ x ∈ (nodesList (treeFrom E j).childList).erase i,
        valRange [(i, vi)] k x = valRange [] k x := by
      intro x hx
      have hxi : x ≠ i := ((hndrest.mem_erase_iff).mp hx).1
      have : (x == i) = false := by simp [hxi]
      simp [valRange, List.lookup, this]
    rw [Zrec_valR_congr (valRange [(i, vi)] k) (valRange [] k) _ _ _ hvalcongr]
  calc ((List.range (k + 1)).map (fun vi => (naive_SPA E k w we j [(i, vi)]).getD vj 0)).sum
      = ((List.range (k + 1)).map (fun vi =>
          Zrec (valRange [] k)
            (weightOf w we (treeFrom E j).nodes (tEdges E (treeFrom E j)))
            ((nodesList (treeFrom E j).childList).erase i)
            (Function.update (Function.update (fun _ => 0) j vj) i vi))).sum := by
        congr 1
        exact List.map_congr_left (fun vi _ => hterm vi)
    _ = Zrec (valRange [] k)
          (weightOf w we (treeFrom E j).nodes (tEdges E (treeFrom E j)))
          (i :: (nodesList (treeFrom E j).childList).erase i)
          (Function.update (fun _ => 0) j vj) := by
        simp only [Zrec]
        have hri : valRange [] k i = List.range (k + 1) := by simp [valRange, List.lookup]
        rw [hri]
    _ = Zrec (valRange [] k)
          (weightOf w we (treeFrom E j).nodes (tEdges E (treeFrom E j)))
          (nodesList (treeFrom E j).childList)
          (Function.update (fun _ => 0) j vj) := by
        have hnd' : (i :: (nodesList (treeFrom E j).childList).erase i).Nodup :=
          (hpermi.nodup_iff).mp hndrest
        exact Zrec_perm _ _ hpermi.symm hnd' _
    _ = (naive_SPA E k w we j []).getD vj 0 := by
        have hRM := rootMarg_flat E k w we [] (treeFrom E j)
          (treeFrom_ok E hWF j).1.2 vj (fun _ => 0)
        rw [hrootj] at hRM
        rw [← hRM]
        exact (naive_SPA_getD E k w we j [] hvj).symm

/-- Claim C3 as stated is false on a run the code completes: take
`E = [(0,1),(2,3)]` (`m = 4`, `k = 1`), all unary exponential weights `1`
and edge weights `exp(theta[((0,1),y1,y2)]) = 1`,
`exp(theta[((2,3),y1,y2)]) = 5`.  Nodes 0 and 2 lie in different connected
components, so fixing node 2 inside `naive_SPA(0, y, {2: 1})` has no
effect: `sum_vi p_joints[(0,vi,2,1,y)] = Z_{01}/Z_{01} = 1`, while
`p_solo[(2,1,y)] = naive_SPA(2, y)[1] / Z_{01} = 6/4 = 3/2`. -/
theorem C3_counterexample :
    ¬ (((List.range (1 + 1)).map (fun vi =>
          p_joints [(0, 1), (2, 3)] 1 (fun _ _ => 1)
            (fun e _ _ => (2 * e.1 + 1 : ℚ)) 0 vi 2 1)).sum
      = p_solo [(0, 1), (2, 3)] 1 (fun _ _ => 1) (fun e _ _ => (2 * e.1 + 1 : ℚ)) 2 1) := by
  have hndA : (treeFrom [(0, 1), (2, 3)] 0).nodes.Nodup := by
    rw [tf_twoComp_0_nodes]; decide
  have hndB : (treeFrom [(0, 1), (2, 3)] 2).nodes.Nodup := by
    rw [tf_twoComp_2_nodes]; decide
  have hg1 : (naive_SPA [(0, 1), (2, 3)] 1 (fun _ _ => 1)
      (fun e _ _ => (2 * e.1 + 1 : ℚ)) 2 []).getD 1 0
      = rootMarg [(0, 1), (2, 3)] 1 (fun _ _ => 1) (fun e _ _ => (2 * e.1 + 1 : ℚ)) []
          (treeFrom [(0, 1), (2, 3)] 2) 1 :=
    naive_SPA_getD [(0, 1), (2, 3)] 1 (fun _ _ => 1) (fun e _ _ => (2 * e.1 + 1 : ℚ))
      2 [] (by omega)
  have hps : ∀ vi, p_joints [(0, 1), (2, 3)] 1 (fun _ _ => 1)
      (fun e _ _ => (2 * e.1 + 1 : ℚ)) 0 vi 2 1
      = (naive_SPA [(0, 1), (2, 3)] 1 (fun _ _ => 1)
          (fun e _ _ => (2 * e.1 + 1 : ℚ)) 0 [(2, 1)]).getD vi 0
        / get_Z [(0, 1), (2, 3)] 1 (fun _ _ => 1) (fun e _ _ => (2 * e.1 + 1 : ℚ)) := by
    intro vi
    simp [p_joints]
  simp only [hps, p_solo, get_Z]
  rw [list_sum_div, sum_getD_range,
    spa_sum [(0, 1), (2, 3)] 1 (fun _ _ => 1) (fun e _ _ => (2 * e.1 + 1 : ℚ))
      [(2, 1)] 0 hndA rfl,
    spa_sum [(0, 1), (2, 3)] 1 (fun _ _ => 1) (fun e _ _ => (2 * e.1 + 1 : ℚ))
      [] 0 hndA rfl,
    hg1,
    rootMarg_flat [(0, 1), (2, 3)] 1 (fun _ _ => 1) (fun e _ _ => (2 * e.1 + 1 : ℚ))
      [] (treeFrom [(0, 1), (2, 3)] 2) hndB 1 (fun _ => 0),
    tf_twoComp_0_nodes, tf_twoComp_2_nodes, tf_twoComp_0_edges,
    tf_twoComp_2_edges, tf_twoComp_2]
  have hv0 : valRange [(2, 1)] 1 0 = [0, 1] := rfl
  have hv1 : valRange [(2, 1)] 1 1 = [0, 1] := rfl
  have hvA : ∀ n, valRange ([] : List (Nat × Nat)) 1 n = [0, 1] := fun _ => rfl
  norm_num [Zrec, hv0, hv1, hvA, List.range_succ, weightOf, uterm, epairE,
    Function.update, RTree.root, RTree.childList, nodesList, nodes_mk, tEdges_mk,
    tEdgesList, orient]

/-- Claim C3, amended: for every class `y` (weight tables `w`, `we`), every
pair of distinct nodes `i ≠ j` lying in the same connected component, and
every `vj ≤ k`, the stored joint table satisfies the law of total
probability `sum_vi p_joints[(i,vi,j,vj,y)] = p_solo[(j,vj,y)]`.  The extra
hypothesis that node 0 has an incident edge ensures `Z` is a value the code
actually computes (`get_Z` raises `KeyError` when node 0 is isolated).
(For nodes in different components the fixed node is silently ignored by
`naive_SPA` and the identity fails, as the counterexample shows.) -/
theorem C3_p_joints_marginalize (E : List Edge) (k : Nat) (w : Nat → Nat → ℚ)
    (we : Edge → Nat → Nat → ℚ) (i j vj : Nat) (hWF : WFE E) (hij : i ≠ j)
    (h0 : ∃ e ∈ E, e.1 = 0 ∨ e.2 = 0)
    (hcc : sameComponent E i j) (hvj : vj ≤ k) :
    ((List.range (k + 1)).map (fun vi => p_joints E k w we i vi j vj)).sum
      = p_solo E k w we j vj := by
  have hroot := (sameComponent_iff_rootOf hWF i j).mp hcc
  unfold p_joints p_solo
  rcases lt_trichotomy i j with hlt | heq | hgt
  · simp only [hlt, if_true]
    rw [list_sum_div, spa_fixed_sum E k w we hWF hij hroot hvj]
  · exact absurd heq hij
  · have hnlt : ¬ i < j := by omega
    simp only [hnlt, if_false, hgt, if_true]
    rw [list_sum_div, spa_fixed_sum_pinned E k w we hWF hij hroot hvj]

theorem C3_witness :
    WFE [(0, 1)] ∧ (0 : Nat) ≠ 1 ∧ (∃ e ∈ ([(0, 1)] : List Edge), e.1 = 0 ∨ e.2 = 0) ∧
      sameComponent [(0, 1)] 0 1 ∧ (1 : Nat) ≤ 1 ∧
      ((List.range (1 + 1)).map (fun vi =>
          p_joints [(0, 1)] 1 (fun _ _ => 2) (fun _ _ _ => 2) 0 vi 1 1)).sum
        = p_solo [(0, 1)] 1 (fun _ _ => 2) (fun _ _ _ => 2) 1 1 :=
  ⟨by decide, by decide, ⟨(0, 1), by decide, by decide⟩,
    Relation.ReflTransGen.single (Or.inl (by decide)), by decide,
    C3_p_joints_marginalize [(0, 1)] 1 (fun _ _ => 2) (fun _ _ _ => 2) 0 1 1
      (by decide) (by decide) ⟨(0, 1), by decide, by decide⟩
      (Relation.ReflTransGen.single (Or.inl (by decide)))
      (by decide)⟩

/-! ## Claim C4: the per-source categorical distribution of the label sampler

`p = np.ones(self.k+1) * (1 - prob_y - prob_0) / (self.k - 1); p[0] = prob_0;
p[y] = prob_y`.  The `p[y]` assignment happens after `p[0]`, so the entry at
`y` wins if `y = 0` (never the case in the sampler, where `y ≥ 1`). -/

def sample_p (k y : Nat) (prob_y prob_0 : ℚ) : List ℚ :=
  (List.range (k + 1)).map (fun idx =>
    if idx = y then prob_y
    else if idx = 0 then prob_0
    else (1 - prob_y - prob_0) / ((k : ℚ) - 1))

theorem sum_map_range_eq_finset (n : Nat) (f : Nat → ℚ) :
    ((List.range n).map f).sum = ∑ idx ∈ Finset.range n, f idx := by
  induction n with
  | zero => simp
  | succ n ih =>
    rw [List.range_succ, List.map_append, List.sum_append, Finset.sum_range_succ, ih]
    simp

theorem sample_p_getD (k y : Nat) (prob_y prob_0 : ℚ) {idx : Nat} (h : idx ≤ k) :
    (sample_p k y prob_y prob_0).getD idx 0
      = (if idx = y then prob_y
         else if idx = 0 then prob_0
         else (1 - prob_y - prob_0) / ((k : ℚ) - 1)) := by
  unfold sample_p
  have hlen : idx < ((List.range (k + 1)).map (fun idx =>
      if idx = y then prob_y
      else if idx = 0 then prob_0
      else (1 - prob_y - prob_0) / ((k : ℚ) - 1))).length := by
    simp
    omega
  rw [List.getD_eq_getElem _ _ hlen]
  simp

/-- Claim C4: for `2 ≤ k` and a class `y ∈ [1,k]`, the length-`(k+1)`
probability vector built by the label sampler has entry `prob_0` at index 0,
`prob_y` at index `y`, the value `(1 - prob_y - prob_0)/(k-1)` at each of the
other `k-1` indices, and its entries sum to exactly 1; moreover whenever
`prob_y + prob_0 > 1` the remaining-mass entries are negative (out-of-range
probabilities, not defended against). -/
theorem C4_sampler_vector (k y : Nat) (prob_y prob_0 : ℚ)
    (hk : 2 ≤ k) (hy1 : 1 ≤ y) (hyk : y ≤ k) :
    (sample_p k y prob_y prob_0).length = k + 1
    ∧ (sample_p k y prob_y prob_0).getD 0 0 = prob_0
    ∧ (sample_p k y prob_y prob_0).getD y 0 = prob_y
    ∧ (∀ idx, idx ≤ k → idx ≠ 0 → idx ≠ y →
        (sample_p k y prob_y prob_0).getD idx 0 = (1 - prob_y - prob_0) / ((k : ℚ) - 1))
    ∧ (sample_p k y prob_y prob_0).sum = 1
    ∧ (1 < prob_y + prob_0 → ∀ idx, idx ≤ k → idx ≠ 0 → idx ≠ y →
        (sample_p k y prob_y prob_0).getD idx 0 < 0) := by
  have hkQ : (0 : ℚ) < (k : ℚ) - 1 := by
    have : (2 : ℚ) ≤ (k : ℚ) := by exact_mod_cast hk
    linarith
  have hy0 : y ≠ 0 := by omega
  refine ⟨by simp [sample_p], ?_, ?_, ?_, ?_, ?_⟩
  · rw [sample_p_getD k y prob_y prob_0 (by omega)]
    simp [Ne.symm hy0]
  · rw [sample_p_getD k y prob_y prob_0 hyk]
    simp
  · intro idx hidx h0 hy
    rw [sample_p_getD k y prob_y prob_0 hidx]
    simp [h0, hy]
  · -- the entries sum to exactly 1
    unfold sample_p
    rw [sum_map_range_eq_finset]
    have hymem : y ∈ Finset.range (k + 1) := Finset.mem_range.mpr (by omega)
    rw [← Finset.add_sum_erase _ _ hymem]
    have h0mem : (0 : Nat) ∈ (Finset.range (k + 1)).erase y :=
      Finset.mem_erase.mpr ⟨Ne.symm hy0, Finset.mem_range.mpr (by omega)⟩
    rw [← Finset.add_sum_erase _ _ h0mem]
    have hconst : ∀ idx ∈ ((Finset.range (k + 1)).erase y).erase 0,
        (if idx = y then prob_y
         else if idx = 0 then prob_0
         else (1 - prob_y - prob_0) / ((k : ℚ) - 1))
          = (1 - prob_y - prob_0) / ((k : ℚ) - 1) := by
      intro idx hidx
      obtain ⟨h0, hidx⟩ := Finset.mem_erase.mp hidx
      obtain ⟨hy, _⟩ := Finset.mem_erase.mp hidx
      simp [h0, hy]
    rw [Finset.sum_congr rfl hconst, Finset.sum_const]
    have hcard : (((Finset.range (k + 1)).erase y).erase 0).card = k - 1 := by
      rw [Finset.card_erase_of_mem h0mem, Finset.card_erase_of_mem hymem]
      simp
    rw [hcard]
    have hcast : ((k - 1 : Nat) : ℚ) = (k : ℚ) - 1 := by
      have : (1 : Nat) ≤ k := by omega
      push_cast [this]
      ring
    have hys : (y = y) = True := by simp
    have h0y : ((0 : Nat) = y) = False := by simp [Ne.symm hy0]
    simp only [hys, h0y, if_true, if_false, ite_true, ite_false]
    rw [nsmul_eq_mul, hcast]
    field_simp
  · intro hover idx hidx h0 hy
    rw [sample_p_getD k y prob_y prob_0 hidx]
    simp only [h0, hy, if_false]
    apply div_neg_of_neg_of_pos
    · linarith
    · exact hkQ

theorem C4_witness :
    (2 ≤ 2 ∧ 1 ≤ 1 ∧ 1 ≤ 2) ∧
      ((sample_p 2 1 (3/5) (3/5)).length = 2 + 1
      ∧ (sample_p 2 1 (3/5) (3/5)).getD 0 0 = 3/5
      ∧ (sample_p 2 1 (3/5) (3/5)).getD 1 0 = 3/5
      ∧ (∀ idx, idx ≤ 2 → idx ≠ 0 → idx ≠ 1 →
          (sample_p 2 1 (3/5) (3/5)).getD idx 0 = (1 - 3/5 - 3/5) / ((2 : ℚ) - 1))
      ∧ (sample_p 2 1 (3/5) (3/5)).sum = 1
      ∧ (1 < (3/5 : ℚ) + 3/5 → ∀ idx, idx ≤ 2 → idx ≠ 0 → idx ≠ 1 →
          (sample_p 2 1 (3/5) (3/5)).getD idx 0 < 0)) :=
  ⟨⟨by decide, by decide, by decide⟩,
    C4_sampler_vector 2 1 (3/5) (3/5) (by decide) (by decide) (by decide)⟩

/-! ## Claim C5: shapes and ranges of `L` and `Y`

The row loop of `_generate_label_matrix`.  `drawY i` models
`np.random.choice(self.k, p=self.p)` for row `i` (a value in `[0, k)`), and
`drawL i j probs` models `np.random.choice(self.k+1, p=probs)` (a value in
`[0, k]`); both bounds are guarantees of `np.random.choice` and enter as
hypotheses.  The probability vector handed to the draw is computed exactly
as in the code, reading the already-sampled parent entry of the current
row. -/

def Y_vec (n : Nat) (drawY : Nat → Nat) : List Nat :=
  (List.range n).map (fun i => drawY i + 1)

def row_probs (E : List Edge) (k : Nat) (w : Nat → Nat → ℚ) (we : Edge → Nat → Nat → ℚ)
    (y : Nat) (row : List Nat) (j : Nat) : List ℚ :=
  match parentOf E j with
  | some pj =>
      sample_p k y (P_conditional E k w we j y pj (row.getD pj 0))
                   (P_conditional E k w we j 0 pj (row.getD pj 0))
  | none =>
      sample_p k y (p_solo E k w we j y) (p_solo E k w we j 0)

def build_row (E : List Edge) (k : Nat) (w : Nat → Nat → ℚ) (we : Edge → Nat → Nat → ℚ)
    (y m : Nat) (drawL : Nat → List ℚ → Nat) : List Nat :=
  (List.range m).foldl (fun row j => row ++ [drawL j (row_probs E k w we y row j)]) []

def L_matrix (E : List Edge) (k : Nat) (wF : Nat → Nat → Nat → ℚ)
    (weF : Nat → Edge → Nat → Nat → ℚ) (n m : Nat) (drawY : Nat → Nat)
    (drawL : Nat → Nat → List ℚ → Nat) : List (List Nat) :=
  (List.range n).map (fun i =>
    build_row E k (wF (drawY i + 1)) (weF (drawY i + 1)) (drawY i + 1) m (drawL i))

theorem foldl_append_length (g : List Nat → Nat → Nat) :
    ∀ (l : List Nat) (init : List Nat),
      (l.foldl (fun row j => row ++ [g row j]) init).length = init.length + l.length
  | [], init => by simp
  | j :: l, init => by
    simp only [List.foldl_cons]
    rw [foldl_append_length g l (init ++ [g init j])]
    simp
    omega

theorem foldl_append_mem (g : List Nat → Nat → Nat) (k : Nat)
    (hg : ∀ row j, g row j ≤ k) :
    ∀ (l : List Nat) (init : List Nat), (∀ v ∈ init, v ≤ k) →
      ∀ v ∈ l.foldl (fun row j => row ++ [g row j]) init, v ≤ k
  | [], init, hinit => hinit
  | j :: l, init, hinit => by
    simp only [List.foldl_cons]
    apply foldl_append_mem g k hg l (init ++ [g init j])
    intro v hv
    rcases List.mem_append.mp hv with hv | hv
    · exact hinit v hv
    · simp at hv
      rw [hv]
      exact hg init j

/-- Claim C5: the label matrix `L` has `n` rows of `m` entries each, every
entry in `{0,...,k}`, and the true-label vector `Y` has length `n` with
every entry in `{1,...,k}` (given the range guarantees of
`np.random.choice`). -/
theorem C5_L_Y_shapes (E : List Edge) (k : Nat) (wF : Nat → Nat → Nat → ℚ)
    (weF : Nat → Edge → Nat → Nat → ℚ) (n m : Nat) (drawY : Nat → Nat)
    (drawL : Nat → Nat → List ℚ → Nat)
    (hY : ∀ i, drawY i < k) (hL : ∀ i j p, drawL i j p ≤ k) :
    (L_matrix E k wF weF n m drawY drawL).length = n
    ∧ (∀ row ∈ L_matrix E k wF weF n m drawY drawL,
        row.length = m ∧ ∀ v ∈ row, v ≤ k)
    ∧ (Y_vec n drawY).length = n
    ∧ (∀ v ∈ Y_vec n drawY, 1 ≤ v ∧ v ≤ k) := by
  refine ⟨by simp [L_matrix], ?_, by simp [Y_vec], ?_⟩
  · intro row hrow
    obtain ⟨i, _, rfl⟩ := List.mem_map.mp hrow
    constructor
    · unfold build_row
      rw [foldl_append_length]
      simp
    · intro v hv
      exact foldl_append_mem _ k (fun row j => hL i j _) (List.range m) [] (by simp) v hv
  · intro v hv
    obtain ⟨i, _, rfl⟩ := List.mem_map.mp hv
    have := hY i
    omega

theorem C5_witness :
    (∀ i : Nat, 0 < 2) ∧ (∀ (i j : Nat) (p : List ℚ), 0 ≤ 2) ∧
      ((L_matrix [(0, 1)] 2 (fun _ _ _ => 1) (fun _ _ _ _ => 1) 3 2
          (fun _ => 0) (fun _ _ _ => 0)).length = 3
      ∧ (∀ row ∈ L_matrix [(0, 1)] 2 (fun _ _ _ => 1) (fun _ _ _ _ => 1) 3 2
            (fun _ => 0) (fun _ _ _ => 0),
          row.length = 2 ∧ ∀ v ∈ row, v ≤ 2)
      ∧ (Y_vec 3 (fun _ => 0)).length = 3
      ∧ (∀ v ∈ Y_vec 3 (fun _ => 0), 1 ≤ v ∧ v ≤ 2)) :=
  ⟨fun _ => by norm_num, fun _ _ _ => by norm_num,
    C5_L_Y_shapes [(0, 1)] 2 (fun _ _ _ => 1) (fun _ _ _ _ => 1) 3 2
      (fun _ => 0) (fun _ _ _ => 0) (fun _ => by norm_num) (fun _ _ _ => by norm_num)⟩

/-! ## Claim C6: the random edge generator

`_generate_edges`: for each `i` in `0..m-1`, if `random() < edge_prob and
i > 0`, attach `i` to the parent `choice(i)`.  `attach i` models the
boolean draw `random() < edge_prob` and `pick i` models `choice(i)` (a
value in `[0, i)`, a guarantee of `np.random.choice`). -/

structure GenState where
  E : List Edge
  E_order : List (Nat × Edge)
  par : List (Nat × Nat)
  idx : Nat

def genEdgesStep (attach : Nat → Bool) (pick : Nat → Nat) (s : GenState) (i : Nat) :
    GenState :=
  if attach i = true ∧ 0 < i then
    { E := s.E ++ [(pick i, i)],
      E_order := s.E_order ++ [(s.idx, (pick i, i))],
      par := s.par ++ [(i, pick i)],
      idx := s.idx + 1 }
  else s

def generate_edges (m : Nat) (attach : Nat → Bool) (pick : Nat → Nat) : GenState :=
  (List.range m).foldl (genEdgesStep attach pick) ⟨[], [], [], 0⟩

theorem enum_concat {α : Type} (l : List α) (a : α) :
    (l ++ [a]).enum = l.enum ++ [(l.length, a)] := by
  have gen : ∀ (n : Nat) (l : List α),
      List.enumFrom n (l ++ [a]) = List.enumFrom n l ++ [(n + l.length, a)] := by
    intro n l
    induction l generalizing n with
    | nil => simp
    | cons x l ih =>
      have harith : n + 1 + l.length = n + (l.length + 1) := by omega
      simp only [List.cons_append, List.enumFrom, List.append_eq, List.length_cons,
        ih (n + 1), harith]
  have := gen 0 l
  simpa [List.enum] using this

/-- The loop invariant of `_generate_edges` after processing sources `< lo`. -/
def EdgesInv (s : GenState) (lo : Nat) : Prop :=
  (∀ e ∈ s.E, e.1 < e.2 ∧ e.2 < lo)
  ∧ (s.E.map Prod.snd).Nodup
  ∧ s.par = s.E.map Prod.swap
  ∧ s.E_order = s.E.enum
  ∧ s.idx = s.E.length

theorem edgesInv_mono {s : GenState} {lo lo' : Nat} (h : EdgesInv s lo) (hle : lo ≤ lo') :
    EdgesInv s lo' := by
  obtain ⟨h1, h2, h3, h4, h5⟩ := h
  exact ⟨fun e he => ⟨(h1 e he).1, lt_of_lt_of_le (h1 e he).2 hle⟩, h2, h3, h4, h5⟩

theorem edgesInv_step (attach : Nat → Bool) (pick : Nat → Nat) (s : GenState) (i : Nat)
    (hpick : 0 < i → pick i < i) (h : EdgesInv s i) :
    EdgesInv (genEdgesStep attach pick s i) (i + 1) := by
  obtain ⟨h1, h2, h3, h4, h5⟩ := h
  unfold genEdgesStep
  by_cases hc : attach i = true ∧ 0 < i
  · rw [if_pos hc]
    refine ⟨?_, ?_, ?_, ?_, ?_⟩
    · intro e he
      simp only [List.mem_append, List.mem_singleton] at he
      rcases he with he | rfl
      · exact ⟨(h1 e he).1, by have := (h1 e he).2; omega⟩
      · exact ⟨hpick hc.2, by omega⟩
    · simp only [List.map_append, List.map_cons, List.map_nil]
      rw [List.nodup_append]
      refine ⟨h2, by simp, ?_⟩
      intro x hx hx'
      simp at hx'
      obtain ⟨e, he, hesnd⟩ := List.mem_map.mp hx
      have := (h1 e he).2
      omega
    · simp [h3]
    · simp only [h4, h5, enum_concat]
    · simp [h5]
  · rw [if_neg hc]
    exact edgesInv_mono ⟨h1, h2, h3, h4, h5⟩ (by omega)

theorem generate_edges_inv (attach : Nat → Bool) (pick : Nat → Nat)
    (hpick : ∀ i, 0 < i → pick i < i) :
    ∀ m : Nat, EdgesInv (generate_edges m attach pick) m := by
  intro m
  induction m with
  | zero =>
    refine ⟨?_, ?_, ?_, ?_, ?_⟩ <;> simp [generate_edges]
  | succ m ih =>
    unfold generate_edges at ih ⊢
    rw [List.range_succ, List.foldl_append]
    simp only [List.foldl_cons, List.foldl_nil]
    exact edgesInv_step attach pick _ m (hpick m) ih

/-- Claim C6: in random mode, the produced edge list has no duplicates; every
edge `(p, i)` satisfies `p < i` (so node 0 is never a child, and increasing
index order visits parents before children); the parent map `par` has exactly
one entry per child (its keys are the distinct children); and `E_order`
enumerates the edges of `E` in insertion order `0..n_edges-1` (with `idx`
ending equal to `n_edges`). -/
theorem C6_generate_edges_invariants (m : Nat) (attach : Nat → Bool) (pick : Nat → Nat)
    (hpick : ∀ i, 0 < i → pick i < i) :
    (generate_edges m attach pick).E.Nodup
    ∧ (∀ e ∈ (generate_edges m attach pick).E, e.1 < e.2)
    ∧ ((generate_edges m attach pick).par.map Prod.fst).Nodup
    ∧ (generate_edges m attach pick).E_order = (generate_edges m attach pick).E.enum
    ∧ (generate_edges m attach pick).idx = (generate_edges m attach pick).E.length
    ∧ WFE (generate_edges m attach pick).E := by
  obtain ⟨h1, h2, h3, h4, h5⟩ := generate_edges_inv attach pick hpick m
  refine ⟨List.Nodup.of_map Prod.snd h2, fun e he => (h1 e he).1, ?_, h4, h5,
    fun e he => (h1 e he).1, h2⟩
  rw [h3]
  have : ((generate_edges m attach pick).E.map Prod.swap).map Prod.fst
      = (generate_edges m attach pick).E.map Prod.snd := by
    rw [List.map_map]
    rfl
  rw [this]
  exact h2

theorem C6_witness :
    (∀ i : Nat, 0 < i → 0 < i) ∧
      ((generate_edges 3 (fun _ => true) (fun _ => 0)).E.Nodup
      ∧ (∀ e ∈ (generate_edges 3 (fun _ => true) (fun _ => 0)).E, e.1 < e.2)
      ∧ ((generate_edges 3 (fun _ => true) (fun _ => 0)).par.map Prod.fst).Nodup
      ∧ (generate_edges 3 (fun _ => true) (fun _ => 0)).E_order
          = (generate_edges 3 (fun _ => true) (fun _ => 0)).E.enum
      ∧ (generate_edges 3 (fun _ => true) (fun _ => 0)).idx
          = (generate_edges 3 (fun _ => true) (fun _ => 0)).E.length
      ∧ WFE (generate_edges 3 (fun _ => true) (fun _ => 0)).E) :=
  ⟨fun _ hi => hi,
    C6_generate_edges_invariants 3 (fun _ => true) (fun _ => 0) (fun _ hi => hi)⟩

/-! ## Claim C7: the parameter sampler

`_generate_params`.  `r i y` models the vector `random(self.k)` drawn for key
`(i, y)` (entries uniform in `[0,1)`), and `re e y1 y2` the vector drawn for
key `((i,j), y1, y2)`.  The stored vector is
`(t_max - t_min) * random(k) + t_min` with `t_min = min(theta_range)`,
`t_max = max(theta_range)`. -/

def theta_unary (m k : Nat) (a b : ℚ) (r : Nat → Nat → List ℚ) :
    List ((Nat × Nat) × List ℚ) :=
  (List.range m).flatMap (fun i => (List.range k).map (fun y0 =>
    ((i, y0 + 1), (r i (y0 + 1)).map (fun x => (max a b - min a b) * x + min a b))))

def theta_edges (E : List Edge) (k : Nat) (a b : ℚ) (re : Edge → Nat → Nat → List ℚ) :
    List ((Edge × Nat × Nat) × List ℚ) :=
  E.flatMap (fun e => (List.range k).flatMap (fun y1 => (List.range k).map (fun y2 =>
    ((e, y1 + 1, y2 + 1),
      (re e (y1 + 1) (y2 + 1)).map (fun x => (max a b - min a b) * x + min a b)))))

theorem nodup_flatMap {α γ : Type} (l : List α) (f : α → List γ) (hnd : l.Nodup)
    (hf : ∀ x ∈ l, (f x).Nodup)
    (hdisj : ∀ x ∈ l, ∀ x' ∈ l, x ≠ x' → ∀ c ∈ f x, c ∉ f x') :
    (l.flatMap f).Nodup := by
  induction l with
  | nil => simp
  | cons x l ih =>
    obtain ⟨hx, hl⟩ := List.nodup_cons.mp hnd
    simp only [List.flatMap_cons]
    rw [List.nodup_append]
    refine ⟨hf x (by simp),
      ih hl (fun y hy => hf y (List.mem_cons_of_mem x hy))
        (fun y hy y' hy' => hdisj y (List.mem_cons_of_mem x hy) y'
          (List.mem_cons_of_mem x hy')), ?_⟩
    intro c hc hc'
    obtain ⟨x', hx', hcx'⟩ := List.mem_flatMap.mp hc'
    have hne : x ≠ x' := fun he => hx (he ▸ hx')
    exact hdisj x (by simp) x' (List.mem_cons_of_mem x hx') hne c hc hcx'

theorem draw_in_range (a b x : ℚ) (h0 : 0 ≤ x) (h1 : x < 1) :
    min a b ≤ (max a b - min a b) * x + min a b
      ∧ (max a b - min a b) * x + min a b ≤ max a b := by
  have hd : 0 ≤ max a b - min a b := by
    have hmm : min a b ≤ max a b := min_le_max
    linarith
  constructor
  · nlinarith
  · nlinarith

/-- Claim C7: after `_generate_params`, the unary table holds exactly one
length-`k` vector for every key `(i, y)` with `i < m`, `1 ≤ y ≤ k`, with all
entries in `[min(theta_range), max(theta_range)]`, and the edge table holds
exactly one length-`k` vector for every key `((i,j), y1, y2)` with
`(i,j) ∈ E` and `y1, y2 ∈ [1, k]`, with all entries in
`[min(theta_edge_range), max(theta_edge_range)]` ("exactly one" = the key
lists have no duplicates and cover precisely these keys). -/
theorem C7_generate_params (m k : Nat) (a b a' b' : ℚ) (E : List Edge)
    (r : Nat → Nat → List ℚ) (re : Edge → Nat → Nat → List ℚ)
    (hr : ∀ i y, (r i y).length = k ∧ ∀ x ∈ r i y, 0 ≤ x ∧ x < 1)
    (hre : ∀ e y1 y2, (re e y1 y2).length = k ∧ ∀ x ∈ re e y1 y2, 0 ≤ x ∧ x < 1)
    (hEnd : E.Nodup) :
    ((theta_unary m k a b r).map Prod.fst).Nodup
    ∧ (∀ key : Nat × Nat, key ∈ (theta_unary m k a b r).map Prod.fst
        ↔ (key.1 < m ∧ 1 ≤ key.2 ∧ key.2 ≤ k))
    ∧ (∀ q ∈ theta_unary m k a b r,
        q.2.length = k ∧ ∀ x ∈ q.2, min a b ≤ x ∧ x ≤ max a b)
    ∧ ((theta_edges E k a' b' re).map Prod.fst).Nodup
    ∧ (∀ key : Edge × Nat × Nat, key ∈ (theta_edges E k a' b' re).map Prod.fst
        ↔ (key.1 ∈ E ∧ 1 ≤ key.2.1 ∧ key.2.1 ≤ k ∧ 1 ≤ key.2.2 ∧ key.2.2 ≤ k))
    ∧ (∀ q ∈ theta_edges E k a' b' re,
        q.2.length = k ∧ ∀ x ∈ q.2, min a' b' ≤ x ∧ x ≤ max a' b') := by
  refine ⟨?_, ?_, ?_, ?_, ?_, ?_⟩
  · -- unary keys have no duplicates
    unfold theta_unary
    rw [List.map_flatMap]
    apply nodup_flatMap _ _ (List.nodup_range m)
    · intro i _
      rw [List.map_map]
      apply List.Nodup.map _ (List.nodup_range k)
      intro y1 y2 h
      simp at h
      exact h
    · intro i _ i' _ hne c hc hc'
      simp at hc hc'
      obtain ⟨y1, _, h1⟩ := hc
      obtain ⟨y2, _, h2⟩ := hc'
      apply hne
      have h12 := h1.trans h2.symm
      simp at h12
      exact h12.1
  · -- unary keys are exactly the claimed ones
    intro key
    constructor
    · intro hmem
      obtain ⟨q, hq, hfst⟩ := List.mem_map.mp hmem
      unfold theta_unary at hq
      obtain ⟨i, hi, hq⟩ := List.mem_flatMap.mp hq
      obtain ⟨y0, hy0, rfl⟩ := List.mem_map.mp hq
      simp at hi hy0
      rw [← hfst]
      refine ⟨?_, ?_, ?_⟩ <;> simp <;> omega
    · rintro ⟨h1, h2, h3⟩
      apply List.mem_map.mpr
      refine ⟨((key.1, key.2),
        (r key.1 key.2).map (fun x => (max a b - min a b) * x + min a b)), ?_, rfl⟩
      unfold theta_unary
      apply List.mem_flatMap.mpr
      refine ⟨key.1, by simp [h1], ?_⟩
      apply List.mem_map.mpr
      refine ⟨key.2 - 1, by simp; omega, ?_⟩
      have hk2 : key.2 - 1 + 1 = key.2 := by omega
      rw [hk2]
  · -- unary values: length k, entries in range
    intro q hq
    unfold theta_unary at hq
    obtain ⟨i, _, hq⟩ := List.mem_flatMap.mp hq
    obtain ⟨y0, _, rfl⟩ := List.mem_map.mp hq
    constructor
    · simp [(hr i (y0 + 1)).1]
    · intro x hx
      simp at hx
      obtain ⟨x0, hx0, rfl⟩ := hx
      obtain ⟨h0, h1⟩ := (hr i (y0 + 1)).2 x0 hx0
      exact draw_in_range a b x0 h0 h1
  · -- edge keys have no duplicates
    unfold theta_edges
    rw [List.map_flatMap]
    apply nodup_flatMap _ _ hEnd
    · intro e _
      rw [List.map_flatMap]
      apply nodup_flatMap _ _ (List.nodup_range k)
      · intro y1 _
        rw [List.map_map]
        apply List.Nodup.map _ (List.nodup_range k)
        intro z1 z2 h
        simp at h
        exact h
      · intro y1 _ y1' _ hne c hc hc'
        simp at hc hc'
        obtain ⟨z, _, h1⟩ := hc
        obtain ⟨z', _, h2⟩ := hc'
        apply hne
        have h12 := h1.trans h2.symm
        simp at h12
        omega
    · intro e _ e' _ hne c hc hc'
      simp at hc hc'
      obtain ⟨y1, _, z1, _, h1⟩ := hc
      obtain ⟨y2, _, z2, _, h2⟩ := hc'
      apply hne
      have h12 := h1.trans h2.symm
      simp at h12
      exact h12.1
  · -- edge keys are exactly the claimed ones
    intro key
    constructor
    · intro hmem
      obtain ⟨q, hq, hfst⟩ := List.mem_map.mp hmem
      unfold theta_edges at hq
      obtain ⟨e, he, hq⟩ := List.mem_flatMap.mp hq
      obtain ⟨y1, hy1, hq⟩ := List.mem_flatMap.mp hq
      obtain ⟨z1, hz1, rfl⟩ := List.mem_map.mp hq
      simp at hy1 hz1
      rw [← hfst]
      refine ⟨by simpa using he, ?_, ?_, ?_, ?_⟩ <;> simp <;> omega
    · rintro ⟨h1, h2, h3, h4, h5⟩
      apply List.mem_map.mpr
      refine ⟨((key.1, key.2.1, key.2.2),
        (re key.1 key.2.1 key.2.2).map (fun x => (max a' b' - min a' b') * x + min a' b')),
        ?_, rfl⟩
      unfold theta_edges
      apply List.mem_flatMap.mpr
      refine ⟨key.1, h1, ?_⟩
      apply List.mem_flatMap.mpr
      refine ⟨key.2.1 - 1, by simp; omega, ?_⟩
      apply List.mem_map.mpr
      refine ⟨key.2.2 - 1, by simp; omega, ?_⟩
      have hk1 : key.2.1 - 1 + 1 = key.2.1 := by omega
      have hk2 : key.2.2 - 1 + 1 = key.2.2 := by omega
      rw [hk1, hk2]
  · -- edge values: length k, entries in range
    intro q hq
    unfold theta_edges at hq
    obtain ⟨e, _, hq⟩ := List.mem_flatMap.mp hq
    obtain ⟨y1, _, hq⟩ := List.mem_flatMap.mp hq
    obtain ⟨z1, _, rfl⟩ := List.mem_map.mp hq
    constructor
    · simp [(hre e (y1 + 1) (z1 + 1)).1]
    · intro x hx
      simp at hx
      obtain ⟨x0, hx0, rfl⟩ := hx
      obtain ⟨h0, h1⟩ := (hre e (y1 + 1) (z1 + 1)).2 x0 hx0
      exact draw_in_range a' b' x0 h0 h1

theorem C7_witness :
    (∀ i y : Nat, ((fun _ _ => [(0 : ℚ)]) i y).length = 1
      ∧ ∀ x ∈ (fun _ _ => [(0 : ℚ)]) i y, 0 ≤ x ∧ x < 1) ∧
    ([(0, 1)] : List Edge).Nodup ∧
    (((theta_unary 2 1 0 1 (fun _ _ => [0])).map Prod.fst).Nodup
      ∧ (∀ key : Nat × Nat, key ∈ (theta_unary 2 1 0 1 (fun _ _ => [0])).map Prod.fst
          ↔ (key.1 < 2 ∧ 1 ≤ key.2 ∧ key.2 ≤ 1))
      ∧ (∀ q ∈ theta_unary 2 1 0 1 (fun _ _ => [0]),
          q.2.length = 1 ∧ ∀ x ∈ q.2, min (0 : ℚ) 1 ≤ x ∧ x ≤ max (0 : ℚ) 1)
      ∧ ((theta_edges [(0, 1)] 1 0 1 (fun _ _ _ => [0])).map Prod.fst).Nodup
      ∧ (∀ key : Edge × Nat × Nat,
          key ∈ (theta_edges [(0, 1)] 1 0 1 (fun _ _ _ => [0])).map Prod.fst
          ↔ (key.1 ∈ ([(0, 1)] : List Edge) ∧ 1 ≤ key.2.1 ∧ key.2.1 ≤ 1
              ∧ 1 ≤ key.2.2 ∧ key.2.2 ≤ 1))
      ∧ (∀ q ∈ theta_edges [(0, 1)] 1 0 1 (fun _ _ _ => [0]),
          q.2.length = 1 ∧ ∀ x ∈ q.2, min (0 : ℚ) 1 ≤ x ∧ x ≤ max (0 : ℚ) 1)) :=
  ⟨fun _ _ => ⟨rfl, fun x hx => by simp at hx; simp [hx]⟩, by decide,
    C7_generate_params 2 1 0 1 0 1 [(0, 1)] (fun _ _ => [0]) (fun _ _ _ => [0])
      (fun _ _ => ⟨rfl, fun x hx => by simp at hx; simp [hx]⟩)
      (fun _ _ _ => ⟨rfl, fun x hx => by simp at hx; simp [hx]⟩) (by decide)⟩

/-! ## Claim C8: the flattened index mapping

`_get_node_index`.  `EO idx` models the `self.E_order[idx]` lookup.  The
result is the `nodes_1` dict, as an association list in assignment order
(`E`'s edges have distinct endpoints, so the two keys in the else-branch are
distinct and the dict/list readings agree). -/

def get_node_index (m k : Nat) (EO : Nat → Edge) (idx1 : Nat) : List (Nat × Nat) :=
  if idx1 < m * k then
    [(idx1 / 2, (idx1 - 2 * (idx1 / 2)) + 1)]
  else
    let e_idx := (idx1 - m * k) / 4
    let e := EO e_idx
    let rem := (idx1 - m * k) - 4 * e_idx
    [(e.1, rem / 2 + 1), (e.2, rem % 2 + 1)]

/-- Claim C8: for every flattened index `idx1 < m*k`, `_get_node_index`
returns the single-entry mapping `{idx1 / 2 : (idx1 mod 2) + 1}`, regardless
of the actual value of `k` — the arithmetic hard-codes `k = 2`. -/
theorem C8_node_index (m k idx1 : Nat) (EO : Nat → Edge) (h : idx1 < m * k) :
    get_node_index m k EO idx1 = [(idx1 / 2, idx1 % 2 + 1)] := by
  unfold get_node_index
  rw [if_pos h]
  have : idx1 - 2 * (idx1 / 2) = idx1 % 2 := by omega
  rw [this]

theorem C8_witness :
    5 < 3 * 7 ∧ get_node_index 3 7 (fun _ => (0, 1)) 5 = [(2, 2)] :=
  ⟨by decide, by rw [C8_node_index 3 7 5 (fun _ => (0, 1)) (by decide)]⟩

/-! ## Claim C10: default-valued tables

`theta`, `p_solo` and `p_joints` are `defaultdict(float)`: looking up a key
that was never stored yields `0.0` instead of raising `KeyError`.  The
tables are modelled as the association lists written by `_generate_params`,
`P_vals_true` and `P_joints_true`, with the `defaultdict` read modelled by
`lookupD` (default `0`).  `wF y`/`weF y` are the exponential weight tables
of class `y`. -/

def lookupD {κ : Type} [BEq κ] (dict : List (κ × ℚ)) (key : κ) : ℚ :=
  ((dict.lookup key).getD 0)

/-- The table written by `P_vals_true`: `p_solo[(i,val,y)]` for `i < m`,
`val ≤ k`, `1 ≤ y ≤ k`, in loop order. -/
def p_solo_dict (E : List Edge) (k m : Nat) (wF : Nat → Nat → Nat → ℚ)
    (weF : Nat → Edge → Nat → Nat → ℚ) : List ((Nat × Nat × Nat) × ℚ) :=
  (List.range k).flatMap (fun y0 => (List.range m).flatMap (fun i =>
    (List.range (k + 1)).map (fun val =>
      ((i, val, y0 + 1), p_solo E k (wF (y0 + 1)) (weF (y0 + 1)) i val))))

/-- The table written by `P_joints_true`: for each `i < j < m` both the key
`(i,val1,j,val2,y)` and its symmetric copy `(j,val2,i,val1,y)` are stored. -/
def p_joints_dict (E : List Edge) (k m : Nat) (wF : Nat → Nat → Nat → ℚ)
    (weF : Nat → Edge → Nat → Nat → ℚ) : List ((Nat × Nat × Nat × Nat × Nat) × ℚ) :=
  (List.range k).flatMap (fun y0 => (List.range m).flatMap (fun i =>
    (List.range' (i + 1) (m - (i + 1))).flatMap (fun j =>
      (List.range (k + 1)).flatMap (fun val1 => (List.range (k + 1)).flatMap (fun val2 =>
        [((i, val1, j, val2, y0 + 1),
            p_joints E k (wF (y0 + 1)) (weF (y0 + 1)) i val1 j val2),
         ((j, val2, i, val1, y0 + 1),
            p_joints E k (wF (y0 + 1)) (weF (y0 + 1)) i val1 j val2)])))))

/-- `P_conditional` as the code evaluates it, through the two `defaultdict`
tables. -/
def P_conditional_dict (E : List Edge) (k m : Nat) (wF : Nat → Nat → Nat → ℚ)
    (weF : Nat → Edge → Nat → Nat → ℚ) (i li j lj y : Nat) : ℚ :=
  lookupD (p_joints_dict E k m wF weF) (i, li, j, lj, y)
    / lookupD (p_solo_dict E k m wF weF) (j, lj, y)

theorem lookup_none_of_keys {κ ν : Type} [BEq κ] [LawfulBEq κ]
    (dict : List (κ × ν)) (key : κ) (h : ∀ q ∈ dict, q.1 ≠ key) :
    dict.lookup key = none := by
  induction dict with
  | nil => rfl
  | cons q t ih =>
    have hq : q.1 ≠ key := h q (by simp)
    have hbeq : (key == q.1) = false := by
      simp
      exact fun he => hq he.symm
    obtain ⟨a, b⟩ := q
    simp only [List.lookup]
    simp only at hbeq
    rw [hbeq]
    exact ih (fun p hp => h p (List.mem_cons_of_mem _ hp))

theorem p_solo_dict_keys (E : List Edge) (k m : Nat) (wF : Nat → Nat → Nat → ℚ)
    (weF : Nat → Edge → Nat → Nat → ℚ) :
    ∀ q ∈ p_solo_dict E k m wF weF, q.1.1 < m := by
  intro q hq
  unfold p_solo_dict at hq
  obtain ⟨y0, _, hq⟩ := List.mem_flatMap.mp hq
  obtain ⟨i, hi, hq⟩ := List.mem_flatMap.mp hq
  obtain ⟨val, _, rfl⟩ := List.mem_map.mp hq
  simpa using List.mem_range.mp hi

theorem p_joints_dict_keys (E : List Edge) (k m : Nat) (wF : Nat → Nat → Nat → ℚ)
    (weF : Nat → Edge → Nat → Nat → ℚ) :
    ∀ q ∈ p_joints_dict E k m wF weF, q.1.1 < m := by
  intro q hq
  unfold p_joints_dict at hq
  obtain ⟨y0, _, hq⟩ := List.mem_flatMap.mp hq
  obtain ⟨i, hi, hq⟩ := List.mem_flatMap.mp hq
  obtain ⟨j, hj, hq⟩ := List.mem_flatMap.mp hq
  obtain ⟨val1, _, hq⟩ := List.mem_flatMap.mp hq
  obtain ⟨val2, _, hq⟩ := List.mem_flatMap.mp hq
  have him := List.mem_range.mp hi
  have hjm := List.mem_range'_1.mp hj
  simp at hq
  rcases hq with rfl | rfl
  · simpa using him
  · simp
    omega

/-- Claim C10: the `theta`, `p_solo` and `p_joints` tables are default-valued
maps: looking up a never-stored key (here, node index `≥ m`) yields the
default `0.0` rather than a missing-key error; consequently `P_conditional`
with out-of-domain arguments evaluates `0.0 / 0.0` (in Python a
`ZeroDivisionError`, never a `KeyError`). -/
theorem C10_default_lookup (E : List Edge) (k m : Nat) (wF : Nat → Nat → Nat → ℚ)
    (weF : Nat → Edge → Nat → Nat → ℚ) (a b : ℚ) (r : Nat → Nat → List ℚ)
    (i li j lj y : Nat) (hi : m ≤ i) (hj : m ≤ j) :
    List.lookup (i, y) (theta_unary m k a b r) = none
    ∧ lookupD (p_solo_dict E k m wF weF) (j, lj, y) = 0
    ∧ lookupD (p_joints_dict E k m wF weF) (i, li, j, lj, y) = 0
    ∧ P_conditional_dict E k m wF weF i li j lj y = 0 / 0 := by
  have h1 : List.lookup (i, y) (theta_unary m k a b r) = none := by
    apply lookup_none_of_keys
    intro q hq
    unfold theta_unary at hq
    obtain ⟨i', hi', hq⟩ := List.mem_flatMap.mp hq
    obtain ⟨y0, _, rfl⟩ := List.mem_map.mp hq
    have := List.mem_range.mp hi'
    intro he
    have : i' = i := congrArg Prod.fst he
    omega
  have h2 : lookupD (p_solo_dict E k m wF weF) (j, lj, y) = 0 := by
    unfold lookupD
    rw [lookup_none_of_keys]
    · rfl
    · intro q hq
      have := p_solo_dict_keys E k m wF weF q hq
      intro he
      have : q.1.1 = j := congrArg Prod.fst he
      omega
  have h3 : lookupD (p_joints_dict E k m wF weF) (i, li, j, lj, y) = 0 := by
    unfold lookupD
    rw [lookup_none_of_keys]
    · rfl
    · intro q hq
      have := p_joints_dict_keys E k m wF weF q hq
      intro he
      have : q.1.1 = i := congrArg Prod.fst he
      omega
  refine ⟨h1, h2, h3, ?_⟩
  unfold P_conditional_dict
  rw [h2, h3]

theorem C10_witness :
    (1 ≤ 2 ∧ 1 ≤ 3) ∧
      (List.lookup (2, 1) (theta_unary 1 1 0 1 (fun _ _ => [0])) = none
      ∧ lookupD (p_solo_dict [] 1 1 (fun _ _ _ => 1) (fun _ _ _ _ => 1)) (3, 0, 1) = 0
      ∧ lookupD (p_joints_dict [] 1 1 (fun _ _ _ => 1) (fun _ _ _ _ => 1)) (2, 0, 3, 0, 1) = 0
      ∧ P_conditional_dict [] 1 1 (fun _ _ _ => 1) (fun _ _ _ _ => 1) 2 0 3 0 1 = 0 / 0) :=
  ⟨⟨by decide, by decide⟩,
    C10_default_lookup [] 1 1 (fun _ _ _ => 1) (fun _ _ _ _ => 1) 0 1 (fun _ _ => [0])
      2 0 3 0 1 (by decide) (by decide)⟩

/-! ## Claim C9: the moment matrices and the `sig` inversion

`_generate_label_matrix` computes `mu_true` and `O_true` with
`higher_order=True` (flattened dimension `sz = m*k + n_edges*k²`), forms
`sig = O_true - mu_true @ diag(p) @ mu_true.T` and inverts it *before* the
row-sampling loop runs.  Over exact arithmetic `np.linalg.inv` raises
`LinAlgError` precisely on a singular matrix; the construction is modelled
as an `Option`: `none` (construction raises, no `L`/`Y` escapes) exactly
when `det sig = 0`. -/

def sz (m k nEdges : Nat) : Nat := m * k + nEdges * k ^ 2

/-- One entry of `mu_true` (`higher_order=True`): row `i*k + val1 - 1`
holds `p_solo[(i,val1,y)]`, rows past `m*k` hold
`p_joints[(e0,val1,e1,val2,y)]` in edge-major, then `val1`, then `val2`
order. -/
def mu_entry (E : List Edge) (k m : Nat) (wF : Nat → Nat → Nat → ℚ)
    (weF : Nat → Edge → Nat → Nat → ℚ) (rIdx y0 : Nat) : ℚ :=
  if rIdx < m * k then
    p_solo E k (wF (y0 + 1)) (weF (y0 + 1)) (rIdx / k) (rIdx % k + 1)
  else
    let off := rIdx - m * k
    let e := E.getD (off / k ^ 2) (0, 0)
    p_joints E k (wF (y0 + 1)) (weF (y0 + 1)) e.1 ((off % k ^ 2) / k + 1) e.2 (off % k + 1)

def mu_true (E : List Edge) (k m : Nat) (wF : Nat → Nat → Nat → ℚ)
    (weF : Nat → Edge → Nat → Nat → ℚ) :
    Matrix (Fin (sz m k E.length)) (Fin k) ℚ :=
  Matrix.of fun r c => mu_entry E k m wF weF r c

/-- One entry of `O_true`: decode the two flattened indices into node-value
dicts, check consistency, merge the dicts (`{**nodes_1, **nodes_2}`), pop
the last item (`popitem`) and average the remaining joint over the class
balance `p`. -/
def O_entry (E : List Edge) (k m : Nat) (wF : Nat → Nat → Nat → ℚ)
    (weF : Nat → Edge → Nat → Nat → ℚ) (p : List ℚ) (idx1 idx2 : Nat) : ℚ :=
  let nodes_1 := get_node_index m k (fun t => E.getD t (0, 0)) idx1
  let nodes_2 := get_node_index m k (fun t => E.getD t (0, 0)) idx2
  let consistent := nodes_1.all (fun q =>
    match nodes_2.lookup q.1 with
    | some v => q.2 == v
    | none => true)
  if consistent then
    let merged := nodes_1 ++ nodes_2.filter (fun q => (nodes_1.lookup q.1).isNone)
    match merged.getLast? with
    | some nv =>
        let rest := merged.dropLast
        ((List.range k).map (fun y0 =>
          (if rest.isEmpty then
            p_solo E k (wF (y0 + 1)) (weF (y0 + 1)) nv.1 nv.2
          else
            (naive_SPA E k (wF (y0 + 1)) (weF (y0 + 1)) nv.1 rest).getD nv.2 0
              / get_Z E k (wF (y0 + 1)) (weF (y0 + 1)))
          * p.getD y0 0)).sum
    | none => 0
  else 0

def O_true (E : List Edge) (k m : Nat) (wF : Nat → Nat → Nat → ℚ)
    (weF : Nat → Edge → Nat → Nat → ℚ) (p : List ℚ) :
    Matrix (Fin (sz m k E.length)) (Fin (sz m k E.length)) ℚ :=
  Matrix.of fun r c => O_entry E k m wF weF p r c

def sig_true (E : List Edge) (k m : Nat) (wF : Nat → Nat → Nat → ℚ)
    (weF : Nat → Edge → Nat → Nat → ℚ) (p : List ℚ) :
    Matrix (Fin (sz m k E.length)) (Fin (sz m k E.length)) ℚ :=
  O_true E k m wF weF p
    - mu_true E k m wF weF * Matrix.diagonal (fun y : Fin k => p.getD y 0)
      * (mu_true E k m wF weF).transpose

/-- `_generate_label_matrix` as a whole: build the higher-order moment
matrices, invert `sig`, and only then sample `L` and `Y` row by row. -/
def generate_label_matrix (E : List Edge) (k m n : Nat) (wF : Nat → Nat → Nat → ℚ)
    (weF : Nat → Edge → Nat → Nat → ℚ) (p : List ℚ) (drawY : Nat → Nat)
    (drawL : Nat → Nat → List ℚ → Nat) : Option (List (List Nat) × List Nat) :=
  if (sig_true E k m wF weF p).det ≠ 0 then
    some (L_matrix E k wF weF n m drawY drawL, Y_vec n drawY)
  else none

/-- Claim C9: the construction computes the `higher_order=True` moment
matrices (their dimension is `sz m k E.length = m*k + n_edges*k²` by the
types of `mu_true`/`O_true`/`sig_true`) and inverts
`sig = O_true - mu_true diag(p) mu_trueᵀ` before sampling: construction
fails (no `L`, no `Y`) exactly when `sig` is singular, and on success the
output is the complete sampled pair — never partial data. -/
theorem C9_sig_inversion_gates_sampling (E : List Edge) (k m n : Nat)
    (wF : Nat → Nat → Nat → ℚ) (weF : Nat → Edge → Nat → Nat → ℚ) (p : List ℚ)
    (drawY : Nat → Nat) (drawL : Nat → Nat → List ℚ → Nat) :
    (generate_label_matrix E k m n wF weF p drawY drawL = none
      ↔ (sig_true E k m wF weF p).det = 0)
    ∧ (∀ LY, generate_label_matrix E k m n wF weF p drawY drawL = some LY →
        LY = (L_matrix E k wF weF n m drawY drawL, Y_vec n drawY)) := by
  constructor
  · unfold generate_label_matrix
    by_cases h : (sig_true E k m wF weF p).det = 0 <;> simp [h]
  · intro LY h
    unfold generate_label_matrix at h
    by_cases hd : (sig_true E k m wF weF p).det = 0
    · simp [hd] at h
    · simp [hd] at h
      exact h.symm

theorem C9_witness :
    (generate_label_matrix [] 1 1 1 (fun _ _ _ => 1) (fun _ _ _ _ => 1) [1]
        (fun _ => 0) (fun _ _ _ => 0) = none
      ↔ (sig_true [] 1 1 (fun _ _ _ => 1) (fun _ _ _ _ => 1) [1]).det = 0)
    ∧ (∀ LY, generate_label_matrix [] 1 1 1 (fun _ _ _ => 1) (fun _ _ _ _ => 1) [1]
        (fun _ => 0) (fun _ _ _ => 0) = some LY →
        LY = (L_matrix [] 1 (fun _ _ _ => 1) (fun _ _ _ _ => 1) 1 1
          (fun _ => 0) (fun _ _ _ => 0), Y_vec 1 (fun _ => 0))) :=
  C9_sig_inversion_gates_sampling [] 1 1 1 (fun _ _ _ => 1) (fun _ _ _ _ => 1) [1]
    (fun _ => 0) (fun _ _ _ => 0)

end SynthGen
